import Mathlib

/-!
Verification development for the serTab performance engine.

Shallow embedding of the playback scheduler (`AudioEngine` in the audio
engine module) and the fingering optimizer (`optimizeFingering` in
`src/services/luthier.ts`).

Modelling conventions:
* JS `number` cells are `Note.num : ℤ`; the cell value `'x'` is `Note.x`;
  "empty" is `Note.num (-1)` exactly as in the source.
* Clock times, tempi and seconds are `ℚ` (real-time arithmetic done
  exactly; the source uses doubles).
* The engine's numeric field `lastNoteIndex : number` with sentinel `-1`
  is `Option ℕ` (`none` for `-1`).
* The scheduler's inner `while` loop body is the function `step`; the
  outer timer (`setTimeout`, lookahead horizon) only batches iterations
  of that body and is not part of the event semantics, so `runSteps k`
  is the sequence of the first `k` loop iterations.
-/

inductive Note where
  | num (n : ℤ)
  | x
deriving DecidableEq, Repr

abbrev TabColumn := List Note

inductive NoteDuration where
  | d1
  | d2
  | d4
  | d8
  | d16
deriving DecidableEq, Repr

/-- A scheduled tone trigger: `playTone(stringIndex, fret, time, duration)`. -/
structure Tone where
  str : ℕ
  fret : ℤ
  time : ℚ
  dur : ℚ
deriving DecidableEq, Repr

/-- The mutable state of the `AudioEngine` class (audio-device handles and
callbacks are reduced to the data the scheduling semantics reads:
the presence of the stop callback is `onStopSet`). -/
structure Engine where
  isPlaying : Bool := false
  nextNoteTime : ℚ := 0
  timerID : Option ℕ := none
  currentColumn : ℕ := 0
  columns : List TabColumn := []
  durations : List NoteDuration := []
  bpm : ℚ := 120
  frequencies : List ℚ := []
  onStopSet : Bool := false
  lastNoteIndex : Option ℕ := none
  connectionMap : List ((ℕ × ℕ) × ℕ) := []
  connectionTargets : List (ℕ × ℕ) := []
deriving DecidableEq, Repr

/-- `getDurationInSeconds` of the engine; the source's `default` arm equals
the `'16'` arm, so the total match loses nothing. -/
def getDurationInSeconds (bpm : ℚ) (d : NoteDuration) : ℚ :=
  let secondsPerBeat : ℚ := 60 / bpm
  match d with
  | .d1 => 4 * secondsPerBeat
  | .d2 => 2 * secondsPerBeat
  | .d4 => 1 * secondsPerBeat
  | .d8 => (1 / 2) * secondsPerBeat
  | .d16 => (1 / 4) * secondsPerBeat

/-- The test `this.columns[i][str] !== -1` used while resolving a
connection: an out-of-range string index yields `undefined`, which is
`!== -1`, hence `true` here as well. -/
def connCellNotEmpty (cols : List TabColumn) (i s : ℕ) : Bool :=
  match (cols.getD i []).get? s with
  | some (Note.num n) => n != -1
  | some Note.x => true
  | none => true

/-- The forward search in `setScore`: first column after `startCol` whose
cell on string `s` is not `-1`. -/
def findNextNote (cols : List TabColumn) (s : ℕ) (startCol : ℕ) : Option ℕ :=
  (List.range cols.length).find? (fun i => decide (startCol < i) && connCellNotEmpty cols i s)

/-- `columns[i].some(n => n !== -1)` — note that `'x'` counts. -/
def colHasNote (col : TabColumn) : Bool :=
  col.any (fun n => n != Note.num (-1))

/-- The reverse scan in `setScore` computing `lastNoteIndex` (`none` is the
source's `-1`). -/
def lastNoteIndexOf (cols : List TabColumn) : Option ℕ :=
  (List.range cols.length).reverse.find? (fun i => colHasNote (cols.getD i []))

/-- The connection preprocessing loop of `setScore`. The JS `Map`/`Set` are
association lists; `Map.set` overwrite order is preserved because lookup
(`mapGet`) takes the last matching entry. -/
def buildConnections (cols : List TabColumn) : List (ℕ × ℕ) → List ((ℕ × ℕ) × ℕ) × List (ℕ × ℕ)
  | [] => ([], [])
  | (c, s) :: rest =>
      let mt := buildConnections cols rest
      if c < cols.length then
        match findNextNote cols s c with
        | some nextIdx => (((c, s), nextIdx) :: mt.1, (nextIdx, s) :: mt.2)
        | none => mt
      else
        mt

/-- Lookup in the connection map (last `set` wins, as for a JS `Map`). -/
def mapGet (m : List ((ℕ × ℕ) × ℕ)) (k : ℕ × ℕ) : Option ℕ :=
  ((m.filter (fun ent => ent.1 = k)).getLast?).map (fun ent => ent.2)

/-- `setScore(columns, durations, bpm, frequencies, instrumentType, connections)`
(the instrument type only selects the synthesizer timbre and is dropped). -/
def setScore (e : Engine) (cols : List TabColumn) (durs : List NoteDuration)
    (bpm : ℚ) (freqs : List ℚ) (conns : List (ℕ × ℕ)) : Engine :=
  let mt := buildConnections cols conns
  { e with
    columns := cols
    durations := durs
    bpm := bpm
    frequencies := freqs
    connectionMap := mt.1
    connectionTargets := mt.2
    lastNoteIndex := lastNoteIndexOf cols }

/-- `start(startIndex)`: early return while playing, else clamp the start
column into range and set the play state.  `now` is
`audioContext.currentTime` at the moment the promise resolves. -/
def start (e : Engine) (now : ℚ) (startIndex : ℤ) : Engine :=
  if e.isPlaying then e
  else
    { e with
      isPlaying := true
      currentColumn := (max 0 (min startIndex ((e.columns.length : ℤ) - 1))).toNat
      nextNoteTime := now + 1 / 20 }

/-- `stop()`: force the stopped state, clear the timer, and report whether
the stop notification fired (it fires whenever a callback is set). -/
def stop (e : Engine) : Engine × Bool :=
  ({ e with isPlaying := false, timerID := none }, e.onStopSet)

/-- `isChainTarget(col, str)`. -/
def isChainTarget (e : Engine) (c s : ℕ) : Bool :=
  e.connectionTargets.contains (c, s)

/-- The `while (true)` walk of `getChainDurationSeconds`, with the `visited`
set made explicit.  The fuel never runs out for the fuel supplied by
`getChainDurationSeconds`: every iteration that recurses consumes one map
entry keyed by a column not seen before, so at most `map.length + 1`
iterations happen. -/
def chainDurGo (m : List ((ℕ × ℕ) × ℕ)) (durs : List NoteDuration) (bpm : ℚ)
    (s : ℕ) : ℕ → List ℕ → ℕ → ℚ
  | 0, _, _ => 0
  | fuel + 1, visited, cur =>
      if cur ∈ visited then 0
      else
        let t := getDurationInSeconds bpm (durs.getD cur NoteDuration.d8)
        match mapGet m (cur, s) with
        | none => t
        | some nxt => t + chainDurGo m durs bpm s fuel (cur :: visited) nxt

/-- `getChainDurationSeconds(startCol, str)`. -/
def getChainDurationSeconds (e : Engine) (startCol s : ℕ) : ℚ :=
  chainDurGo e.connectionMap e.durations e.bpm s (e.connectionMap.length + 1) [] startCol

/-- Truthiness of `this.frequencies[stringIndex]`. -/
def freqOK (freqs : List ℚ) (s : ℕ) : Bool :=
  match freqs.get? s with
  | some f => f != 0
  | none => false

/-- The `column.forEach((fret, stringIndex) => ...)` body of `scheduleNote`:
play numbers other than `-1` on strings with a (truthy) frequency, unless
the cell is the target of a link chain. -/
def scheduleTones (e : Engine) (colIndex : ℕ) (time : ℚ) : ℕ → List Note → List Tone
  | _, [] => []
  | s, Note.x :: rest => scheduleTones e colIndex time (s + 1) rest
  | s, Note.num n :: rest =>
      if n != -1 && freqOK e.frequencies s then
        if isChainTarget e colIndex s then
          scheduleTones e colIndex time (s + 1) rest
        else
          ⟨s, n, time, getChainDurationSeconds e colIndex s⟩ :: scheduleTones e colIndex time (s + 1) rest
      else
        scheduleTones e colIndex time (s + 1) rest

/-- `scheduleNote(colIndex, time)` as the list of tone triggers it emits
(the cursor-tick timeout is UI notification and carries no score data). -/
def scheduleNote (e : Engine) (colIndex : ℕ) (time : ℚ) : List Tone :=
  match e.columns.get? colIndex with
  | none => []
  | some col => scheduleTones e colIndex time 0 col

/-- `nextNote()`: advance by one sixteenth step and move the column cursor,
wrapping to `0` past the end. -/
def nextNote (e : Engine) : Engine :=
  let secondsPerBeat : ℚ := 60 / e.bpm
  let c := e.currentColumn + 1
  { e with
    nextNoteTime := e.nextNoteTime + (1 / 4) * secondsPerBeat
    currentColumn := if e.columns.length ≤ c then 0 else c }

/-- The auto-stop test of the scheduler:
`this.lastNoteIndex !== -1 && this.currentColumn > this.lastNoteIndex`. -/
def autoStops (e : Engine) : Bool :=
  match e.lastNoteIndex with
  | some n => decide (n < e.currentColumn)
  | none => false

/-- One iteration of the scheduler's `while` loop: auto-stop check, then
render the current column and advance.  A stopped engine does nothing
(its timer chain is cancelled).  The third component records the rendered
column and its trigger time. -/
def step (e : Engine) : Engine × List Tone × List (ℕ × ℚ) :=
  if e.isPlaying = false then (e, [], [])
  else if autoStops e then ((stop e).1, [], [])
  else (nextNote e, scheduleNote e e.currentColumn e.nextNoteTime, [(e.currentColumn, e.nextNoteTime)])

/-- The first `k` scheduler loop iterations, with the emitted tone triggers
and rendered `(column, time)` pairs in order. -/
def runSteps : ℕ → Engine → Engine × List Tone × List (ℕ × ℚ)
  | 0, e => (e, [], [])
  | k + 1, e =>
      let r1 := step e
      let r2 := runSteps k r1.1
      (r2.1, r1.2.1 ++ r2.2.1, r1.2.2 ++ r2.2.2)

/-- Modelled from the spec: the step span `D_steps` a duration symbol is
claimed to contribute to the schedule advance (claim C1's 16, 8, 4, 2, 1). -/
def stepsOfDuration : NoteDuration → ℕ
  | .d1 => 16
  | .d2 => 8
  | .d4 => 4
  | .d8 => 2
  | .d16 => 1

/-!
## Fingering optimizer (`src/services/luthier.ts`)

The pitch formula uses `Math.log2`; its exact mathematical semantics is
embedded over `ℝ` (`getSemitone`, `openPitch`).  Everything downstream of
the two `round` calls is integer and rational arithmetic and is embedded
computably; `optimizeFingeringR` is the faithful composition.
-/

/-- A candidate placement (`NoteOption` in the source). -/
structure NoteOption where
  strIndex : ℕ
  fret : ℤ
  semitone : ℤ
deriving DecidableEq, Repr

/-- `getSemitone(stringOpenFreq, fret)`:
`Math.round(69 + 12 * Math.log2(open * 2 ^ (fret/12) / 440))`. -/
noncomputable def getSemitone (stringOpenFreq : ℝ) (fret : ℤ) : ℤ :=
  round ((69 : ℝ) + 12 * Real.logb 2 (stringOpenFreq * (2 : ℝ) ^ ((fret : ℝ) / 12) / 440))

/-- The open-string pitch computed during candidate generation:
`Math.round(69 + 12 * Math.log2(openFreq / A4))`. -/
noncomputable def openPitch (openFreq : ℝ) : ℤ :=
  round ((69 : ℝ) + 12 * Real.logb 2 (openFreq / 440))

/-- The cells visited by `col.forEach((fret, strIdx) => ...)` that pass the
`fret > -1` test, with their string indices (`'x' > -1` is false in JS). -/
def soundingCellsFrom : ℕ → List Note → List (ℕ × ℤ)
  | _, [] => []
  | s, Note.num n :: rest =>
      if -1 < n then (s, n) :: soundingCellsFrom (s + 1) rest
      else soundingCellsFrom (s + 1) rest
  | s, Note.x :: rest => soundingCellsFrom (s + 1) rest

def soundingCells (col : List Note) : List (ℕ × ℤ) :=
  soundingCellsFrom 0 col

/-- `notesInCol` of a column, over integer open pitches: the pitch of a
sounding cell `(s, n)` is `openPitches[s] + n` (equal to
`getSemitone(tuning[s], n)` by `getSemitone_eq` below). -/
def colPitches (openPitches : List ℤ) (col : List Note) : List ℤ :=
  (soundingCells col).map (fun sn => openPitches.getD sn.1 0 + sn.2)

/-- `notesInCol` of a column, literally via `getSemitone`. -/
noncomputable def colPitchesR (tuning : List ℝ) (col : List Note) : List ℤ :=
  (soundingCells col).map (fun sn => getSemitone (tuning.getD sn.1 1) sn.2)

/-- The eligible sequence: columns with exactly one sounding note, with
their original index (`sequence` in the source). -/
def seqFrom (pitches : List Note → List ℤ) : ℕ → List (List Note) → List (ℕ × ℤ)
  | _, [] => []
  | i, col :: rest =>
      match pitches col with
      | [p] => (i, p) :: seqFrom pitches (i + 1) rest
      | _ => seqFrom pitches (i + 1) rest

def seqOf (openPitches : List ℤ) (cols : List (List Note)) : List (ℕ × ℤ) :=
  seqFrom (colPitches openPitches) 0 cols

noncomputable def seqOfR (tuning : List ℝ) (cols : List (List Note)) : List (ℕ × ℤ) :=
  seqFrom (colPitchesR tuning) 0 cols

/-- Candidate generation for one target pitch: every string whose needed
fret `target - openPitch` lies in `[0, 24]`. -/
def mkOptionsFrom (target : ℤ) : ℕ → List ℤ → List NoteOption
  | _, [] => []
  | s, op :: rest =>
      let neededFret := target - op
      if 0 ≤ neededFret ∧ neededFret ≤ 24 then
        ⟨s, neededFret, target⟩ :: mkOptionsFrom target (s + 1) rest
      else
        mkOptionsFrom target (s + 1) rest

def mkOptions (openPitches : List ℤ) (target : ℤ) : List NoteOption :=
  mkOptionsFrom target 0 openPitches

/-- The transition cost: `fretDist * 1.0 + stringDist * 0.5`, plus the
open-string bonus `-2.0` when the candidate fret is `0` (exact in `ℚ`). -/
def moveCost (prevOpt currOpt : NoteOption) : ℚ :=
  ((currOpt.fret - prevOpt.fret).natAbs : ℚ) * 1 +
    (((currOpt.strIndex : ℤ) - (prevOpt.strIndex : ℤ)).natAbs : ℚ) * (1 / 2) +
    (if currOpt.fret = 0 then -2 else 0)

/-- DP costs with JS `Infinity` as `⊤`. -/
abbrev Cost := WithTop ℚ

/-- The `prevOptions.forEach` fold computing `(minCost, bestPrevIdx)` for
one current option; the pair list carries `(prevIdx, (prevOpt, dp[i-1][prevIdx]))`. -/
def bestPrevFold (currOpt : NoteOption) : List (ℕ × (NoteOption × Cost)) → Cost × ℤ → Cost × ℤ
  | [], acc => acc
  | (idx, (prevOpt, prevCost)) :: rest, acc =>
      let totalCost := prevCost + (moveCost prevOpt currOpt : ℚ)
      bestPrevFold currOpt rest (if totalCost < acc.1 then (totalCost, (idx : ℤ)) else acc)

/-- One DP column: `dp[i]` and `path[i]` from row `i-1`. -/
def dpStep (prevOpts : List NoteOption) (prevDp : List Cost) (currOpts : List NoteOption) :
    List Cost × List ℤ :=
  let pairs := List.enumFrom 0 (prevOpts.zip prevDp)
  (currOpts.map (fun c => bestPrevFold c pairs (⊤, -1))).unzip

def dpRowsGo : List NoteOption → List Cost → List (List NoteOption) → List (List Cost × List ℤ)
  | _, _, [] => []
  | prevG, prevDp, g :: rest =>
      let r := dpStep prevG prevDp g
      r :: dpRowsGo g r.1 rest

/-- All DP rows; row `0` is `dp[0][*] = 0`, `path[0][*] = -1`. -/
def dpRows : List (List NoteOption) → List (List Cost × List ℤ)
  | [] => []
  | g :: rest =>
      let r0 : List Cost × List ℤ := (g.map (fun _ => (0 : Cost)), g.map (fun _ => (-1 : ℤ)))
      r0 :: dpRowsGo g r0.1 rest

/-- The `dp[lastStep].forEach` fold finding the cheapest ending. -/
def bestFinalFold : List (ℕ × Cost) → Cost × ℤ → Cost × ℤ
  | [], acc => acc
  | (idx, c) :: rest, acc =>
      bestFinalFold rest (if c < acc.1 then (c, (idx : ℤ)) else acc)

def bestFinalIdx (dpLast : List Cost) : ℤ :=
  (bestFinalFold (List.enumFrom 0 dpLast) (⊤, -1)).2

/-- JS array indexing `l[i]` where `i` is an integer that may be `-1`, or
`undefined` (`none`): both read `undefined`. -/
def idxGet (l : List α) : Option ℤ → Option α
  | none => none
  | some i => if 0 ≤ i then l.get? i.toNat else none

/-- The backtracking loop, producing the per-step chosen options from step
`lastStep` down to `0` (the source `unshift`s, so the forward-order list
is the reverse of this one, fed with the rows reversed). -/
def btList : List (List NoteOption × List ℤ) → Option ℤ → List (Option NoteOption)
  | [], _ => []
  | (g, p) :: rest, ci => idxGet g ci :: btList rest (idxGet p ci)

/-- The index threaded through the backtracking loop. -/
def btCi : List (List NoteOption × List ℤ) → Option ℤ → Option ℤ
  | [], ci => ci
  | (_, p) :: rest, ci => btCi rest (idxGet p ci)

/-- `new Array(stringCount).fill(-1)` with the chosen fret written at the
chosen string. -/
def optColumn (stringCount : ℕ) (o : NoteOption) : List Note :=
  (List.replicate stringCount (Note.num (-1))).set o.strIndex (Note.num o.fret)

/-- Step 5 of the source: rewrite each mapped column.  `option.strIndex` on
an `undefined` option throws a `TypeError`, hence `none`. -/
def applyMapping (stringCount : ℕ) : List (List Note) → List (ℕ × Option NoteOption) → Option (List (List Note))
  | cols, [] => some cols
  | _, (_, none) :: _ => none
  | cols, (c, some o) :: rest => applyMapping stringCount (cols.set c (optColumn stringCount o)) rest

/-- The optimizer pipeline downstream of the eligible-sequence extraction. -/
def optimizeFrom (openPitches : List ℤ) (stringCount : ℕ) (cols : List (List Note))
    (seq : List (ℕ × ℤ)) : Option (List (List Note)) :=
  if seq.length < 2 then some cols
  else
    let graph := seq.map (fun ip => mkOptions openPitches ip.2)
    let rows := dpRows graph
    let dpLast := (rows.map Prod.fst).getLastD []
    let bi := bestFinalIdx dpLast
    let opts := (btList ((graph.zip (rows.map Prod.snd)).reverse) (some bi)).reverse
    let mapping := (seq.map Prod.fst).zip opts
    applyMapping stringCount cols mapping

/-- `optimizeFingering` over integer open-string pitches. -/
def optimizeFingering (openPitches : List ℤ) (stringCount : ℕ) (cols : List (List Note)) :
    Option (List (List Note)) :=
  optimizeFrom openPitches stringCount cols (seqOf openPitches cols)

/-- `optimizeFingering(columns, instrumentType)` with the instrument's
tuning frequencies and string count passed explicitly; `none` is a thrown
`TypeError`. -/
noncomputable def optimizeFingeringR (tuning : List ℝ) (stringCount : ℕ) (cols : List (List Note)) :
    Option (List (List Note)) :=
  optimizeFrom (tuning.map openPitch) stringCount cols (seqOfR tuning cols)

/-!
## Concrete scores used by counterexamples and witnesses
-/

/-- Three quarter-note columns, each a single fret-0 note; bpm 120. -/
def engC1 : Engine :=
  setScore {} [[Note.num 0], [Note.num 0], [Note.num 0]]
    [NoteDuration.d4, NoteDuration.d4, NoteDuration.d4] 120 [110] []

/-- A score whose last (and only) column holds a note. -/
def engC2 : Engine :=
  setScore {} [[Note.num 0]] [NoteDuration.d8] 120 [110] []

/-- A stopped engine with a stop callback registered. -/
def engC4 : Engine := { onStopSet := true }

/-- A tie marker on an empty source cell, with a later note on the string. -/
def engC5 : Engine :=
  setScore {} [[Note.num (-1)], [Note.num 5]]
    [NoteDuration.d8, NoteDuration.d8] 120 [440] [(0, 0)]

/-- The same score as `engC5` with no tie marker. -/
def engC5b : Engine :=
  setScore {} [[Note.num (-1)], [Note.num 5]]
    [NoteDuration.d8, NoteDuration.d8] 120 [440] []

/-- An empty score: the one column has no note. -/
def engC6 : Engine :=
  setScore {} [[Note.num (-1)]] [NoteDuration.d8] 120 [110] []

/-- A score holding the out-of-range fret 25. -/
def engC9 : Engine :=
  setScore {} [[Note.num 25]] [] 120 [440] []

/-- An engine in the Playing state. -/
def engC10 : Engine := { isPlaying := true }

/-!
## Scheduler lemmas
-/

theorem step_not_playing {e : Engine} (h : e.isPlaying = false) : step e = (e, [], []) := by
  simp [step, h]

theorem runSteps_not_playing (k : ℕ) {e : Engine} (h : e.isPlaying = false) :
    runSteps k e = (e, [], []) := by
  induction k with
  | zero => rfl
  | succ k ih => simp [runSteps, step_not_playing h, ih]

theorem step_playing_render {e : Engine} (hp : e.isPlaying = true) (ha : autoStops e = false) :
    step e = (nextNote e, scheduleNote e e.currentColumn e.nextNoteTime,
      [(e.currentColumn, e.nextNoteTime)]) := by
  simp [step, hp, ha]

theorem step_playing_stop {e : Engine} (hp : e.isPlaying = true) (ha : autoStops e = true) :
    step e = ((stop e).1, [], []) := by
  simp [step, hp, ha]

theorem nextNote_isPlaying (e : Engine) : (nextNote e).isPlaying = e.isPlaying := rfl

theorem nextNote_bpm (e : Engine) : (nextNote e).bpm = e.bpm := rfl

theorem nextNote_columns (e : Engine) : (nextNote e).columns = e.columns := rfl

theorem nextNote_lastNoteIndex (e : Engine) : (nextNote e).lastNoteIndex = e.lastNoteIndex := rfl

theorem nextNote_nextNoteTime (e : Engine) :
    (nextNote e).nextNoteTime = e.nextNoteTime + (1 / 4) * (60 / e.bpm) := rfl

theorem stop_isPlaying (e : Engine) : (stop e).1.isPlaying = false := rfl

theorem start_isPlaying (e : Engine) (now : ℚ) (idx : ℤ) : (start e now idx).isPlaying = true := by
  by_cases h : e.isPlaying = true <;> simp [start, h]

theorem start_columns (e : Engine) (now : ℚ) (idx : ℤ) : (start e now idx).columns = e.columns := by
  by_cases h : e.isPlaying = true <;> simp [start, h]

theorem start_lastNoteIndex (e : Engine) (now : ℚ) (idx : ℤ) :
    (start e now idx).lastNoteIndex = e.lastNoteIndex := by
  by_cases h : e.isPlaying = true <;> simp [start, h]

theorem start_bpm (e : Engine) (now : ℚ) (idx : ℤ) : (start e now idx).bpm = e.bpm := by
  by_cases h : e.isPlaying = true <;> simp [start, h]

/-- Every rendered column of a run that is still playing advanced the clock
by exactly one sixteenth step, so the trigger times form the arithmetic
sequence with difference `0.25 * 60 / bpm` regardless of durations. -/
theorem runSteps_times (k : ℕ) : ∀ e : Engine, (runSteps k e).1.isPlaying = true →
    (runSteps k e).2.2.map Prod.snd =
      (List.range k).map (fun i : ℕ => e.nextNoteTime + (i : ℚ) * ((1 / 4) * (60 / e.bpm))) := by
  induction k with
  | zero => intro e _; simp [runSteps]
  | succ k ih =>
      intro e h
      cases hp : e.isPlaying with
      | false =>
          rw [runSteps_not_playing (k + 1) hp] at h
          exact absurd h (by simp [hp])
      | true =>
          cases ha : autoStops e with
          | true =>
              have hs := step_playing_stop hp ha
              have : runSteps (k + 1) e = ((stop e).1, [], []) := by
                simp [runSteps, hs, runSteps_not_playing k (stop_isPlaying e)]
              rw [this] at h
              exact absurd h (by simp [stop_isPlaying])
          | false =>
              have hs := step_playing_render hp ha
              have hrun : runSteps (k + 1) e =
                  ((runSteps k (nextNote e)).1,
                    scheduleNote e e.currentColumn e.nextNoteTime ++ (runSteps k (nextNote e)).2.1,
                    (e.currentColumn, e.nextNoteTime) :: (runSteps k (nextNote e)).2.2) := by
                simp [runSteps, hs]
              rw [hrun] at h ⊢
              have ihr := ih (nextNote e) h
              simp only [List.map_cons, ihr, nextNote_nextNoteTime, nextNote_bpm]
              rw [List.range_succ_eq_map, List.map_cons, List.map_map]
              congr 1
              · norm_num
              · apply List.map_congr_left
                intro i _
                simp only [Function.comp]
                push_cast
                ring

theorem scheduleTones_empty {e : Engine} {ci : ℕ} {t : ℚ} :
    ∀ (col : List Note) (s : ℕ), (∀ x ∈ col, x = Note.num (-1)) →
      scheduleTones e ci t s col = [] := by
  intro col
  induction col with
  | nil => intro s _; rfl
  | cons hd tl ih =>
      intro s h
      have hhd : hd = Note.num (-1) := h hd (by simp)
      subst hhd
      have htl : ∀ x ∈ tl, x = Note.num (-1) := fun x hx => h x (List.mem_cons_of_mem _ hx)
      simp [scheduleTones, ih (s + 1) htl]

theorem scheduleNote_empty {e : Engine}
    (hcols : ∀ col ∈ e.columns, ∀ x ∈ col, x = Note.num (-1)) (c : ℕ) (t : ℚ) :
    scheduleNote e c t = [] := by
  unfold scheduleNote
  cases hc : e.columns.get? c with
  | none => rfl
  | some col => exact scheduleTones_empty col 0 (hcols col (List.get?_mem hc))

theorem lastNoteIndexOf_none {cols : List TabColumn} (h : lastNoteIndexOf cols = none) :
    ∀ col ∈ cols, ∀ x ∈ col, x = Note.num (-1) := by
  intro col hcol x hx
  obtain ⟨i, hget⟩ := List.mem_iff_get?.mp hcol
  have hlt : i < cols.length := (List.get?_eq_some.mp hget).1
  unfold lastNoteIndexOf at h
  rw [List.find?_eq_none] at h
  have hfalse := h i (by simp [List.mem_reverse, List.mem_range, hlt])
  have hgd : cols.getD i [] = col := by
    rw [List.getD_eq_get?, hget]
    rfl
  rw [hgd] at hfalse
  simp only [colHasNote, List.any_eq_true, not_exists, not_and, Bool.not_eq_true] at hfalse
  have := hfalse x hx
  simpa [bne_eq_false_iff_eq] using this

theorem runSteps_empty_score (k : ℕ) : ∀ e : Engine, e.isPlaying = true →
    e.lastNoteIndex = none → (∀ col ∈ e.columns, ∀ x ∈ col, x = Note.num (-1)) →
    (runSteps k e).1.isPlaying = true ∧ (runSteps k e).2.1 = [] := by
  induction k with
  | zero => intro e h1 _ _; exact ⟨h1, rfl⟩
  | succ k ih =>
      intro e h1 h2 h3
      have ha : autoStops e = false := by simp [autoStops, h2]
      have hs := step_playing_render h1 ha
      have htones : scheduleNote e e.currentColumn e.nextNoteTime = [] :=
        scheduleNote_empty h3 _ _
      have ihr := ih (nextNote e) (by rw [nextNote_isPlaying]; exact h1)
        (by rw [nextNote_lastNoteIndex]; exact h2)
        (by rw [nextNote_columns]; exact h3)
      constructor
      · simp [runSteps, hs, ihr.1]
      · simp [runSteps, hs, htones, ihr.2]

theorem scheduleTones_mem {e : Engine} {ci : ℕ} {t : ℚ} :
    ∀ (col : List Note) (s0 j : ℕ) (n : ℤ), col.get? j = some (Note.num n) → n ≠ -1 →
      freqOK e.frequencies (s0 + j) = true → isChainTarget e ci (s0 + j) = false →
      Tone.mk (s0 + j) n t (getChainDurationSeconds e ci (s0 + j)) ∈ scheduleTones e ci t s0 col := by
  intro col
  induction col with
  | nil => intro s0 j n hget; simp at hget
  | cons hd tl ih =>
      intro s0 j n hget hn hf hct
      cases j with
      | zero =>
          simp only [List.get?_cons_zero, Option.some_inj] at hget
          subst hget
          have hb : (n != -1) = true := by simpa [bne_iff_ne] using hn
          simp only [Nat.add_zero] at hf hct ⊢
          simp [scheduleTones, hb, hf, hct]
      | succ j =>
          have harith : s0 + (j + 1) = (s0 + 1) + j := by omega
          rw [harith] at hf hct ⊢
          have hmem := ih (s0 + 1) j n (by simpa using hget) hn hf hct
          cases hd with
          | x => simpa [scheduleTones] using hmem
          | num m =>
              by_cases hcond : (m != -1 && freqOK e.frequencies s0) = true
              · by_cases htgt : isChainTarget e ci s0 = true
                · simpa [scheduleTones, hcond, htgt] using hmem
                · simp only [Bool.not_eq_true] at htgt
                  simp [scheduleTones, hcond, htgt]
                  right
                  exact hmem
              · simp only [Bool.not_eq_true] at hcond
                simpa [scheduleTones, hcond] using hmem

theorem scheduleTones_not_target {e : Engine} {ci : ℕ} {t : ℚ} :
    ∀ (col : List Note) (s0 : ℕ) (tone : Tone), tone ∈ scheduleTones e ci t s0 col →
      isChainTarget e ci tone.str = false := by
  intro col
  induction col with
  | nil => intro s0 tone h; simp [scheduleTones] at h
  | cons hd tl ih =>
      intro s0 tone h
      cases hd with
      | x => exact ih (s0 + 1) tone (by simpa [scheduleTones] using h)
      | num m =>
          by_cases hcond : (m != -1 && freqOK e.frequencies s0) = true
          · by_cases htgt : isChainTarget e ci s0 = true
            · exact ih (s0 + 1) tone (by simpa [scheduleTones, hcond, htgt] using h)
            · simp only [Bool.not_eq_true] at htgt
              rw [scheduleTones] at h
              simp only [hcond, if_true, htgt, if_false, Bool.false_eq_true, List.mem_cons] at h
              rcases h with heq | hmem
              · subst heq; exact htgt
              · exact ih (s0 + 1) tone hmem
          · simp only [Bool.not_eq_true] at hcond
            exact ih (s0 + 1) tone (by simpa [scheduleTones, hcond] using h)

theorem buildConnections_targets_mem {cols : List TabColumn} :
    ∀ (conns : List (ℕ × ℕ)) {c s i : ℕ}, (c, s) ∈ conns → c < cols.length →
      findNextNote cols s c = some i → (i, s) ∈ (buildConnections cols conns).2 := by
  intro conns
  induction conns with
  | nil => intro c s i h; simp at h
  | cons hd tl ih =>
      intro c s i hmem hc hfind
      obtain ⟨c', s'⟩ := hd
      rcases List.mem_cons.mp hmem with heq | hmem'
      · rw [Prod.mk.injEq] at heq
        obtain ⟨h1, h2⟩ := heq
        subst h1
        subst h2
        simp [buildConnections, hc, hfind]
      · have hrec := ih hmem' hc hfind
        by_cases hb : c' < cols.length
        · cases hfind2 : findNextNote cols s' c' with
          | none => simpa [buildConnections, hb, hfind2] using hrec
          | some j =>
              simp [buildConnections, hb, hfind2]
              right
              exact hrec
        · simpa [buildConnections, hb] using hrec

theorem isChainTarget_of_mem {e : Engine} {c s : ℕ}
    (h : (c, s) ∈ e.connectionTargets) : isChainTarget e c s = true :=
  List.elem_iff.mpr h

/-- C10: calling `start` while already playing changes nothing — the guard
`if (this.isPlaying) return;` runs before any state write, so the whole
engine state is untouched and no new scheduling loop begins. -/
theorem c10_start_while_playing_noop (e : Engine) (now : ℚ) (idx : ℤ)
    (h : e.isPlaying = true) : start e now idx = e := by
  simp [start, h]

theorem c10_start_while_playing_noop_witness :
    engC10.isPlaying = true ∧ start engC10 5 3 = engC10 :=
  ⟨rfl, c10_start_while_playing_noop engC10 5 3 rfl⟩

/-- C4 counterexample: calling `stop()` while the engine is already in the
Stopped state still fires the stop notification, because `stop()` invokes
the callback unconditionally — contradicting "it never fires for a
`stop()` call made while already Stopped". -/
theorem c4_counterexample : engC4.isPlaying = false ∧ (stop engC4).2 = true :=
  ⟨rfl, rfl⟩

/-- C4 amended: `stop()` always forces the Stopped state and clears the
pending timer, and is idempotent on the engine state, but the stop
notification fires on every call (whenever a callback is registered) —
once per call, not once per Playing→Stopped transition. -/
theorem c4_amended_stop (e : Engine) :
    (stop e).1.isPlaying = false ∧ (stop e).1.timerID = none ∧
      stop (stop e).1 = ((stop e).1, e.onStopSet) ∧ (stop e).2 = e.onStopSet :=
  ⟨rfl, rfl, rfl, rfl⟩

/-- C2: with the last note in the final authored column (`lastNoteIndex = 0`
on a one-column score), the wrap in `nextNote` resets `currentColumn` to 0
before the auto-stop test `currentColumn > lastNoteIndex` can ever hold,
so the scheduler replays column 0 forever and never reaches Stopped. -/
theorem c2_wrap_never_stops :
    engC2.lastNoteIndex = some 0 ∧ engC2.columns.length = 1 ∧
      (runSteps 3 (start engC2 0 0)).2.2.map Prod.fst = [0, 0, 0] ∧
      (runSteps 3 (start engC2 0 0)).1.isPlaying = true := by
  refine ⟨rfl, rfl, ?_, ?_⟩ <;> decide

/-- C6 counterexample: starting playback on a score with no notes
(`lastNoteIndex = none`, the source's `-1`) does not auto-stop: the guard
`lastNoteIndex !== -1` makes the auto-stop branch unreachable, so the
engine stays in the Playing state (though no tone is ever triggered). -/
theorem c6_counterexample :
    engC6.lastNoteIndex = none ∧
      (runSteps 3 (start engC6 0 0)).1.isPlaying = true ∧
      (runSteps 3 (start engC6 0 0)).2.1 = [] := by
  refine ⟨rfl, ?_, ?_⟩ <;> decide

/-- C6 amended: starting playback on an empty score triggers zero notes, but
the engine never transitions to Stopped on its own — it stays Playing,
cycling through the empty columns, for any number of scheduler steps. -/
theorem c6_amended (e₀ : Engine) (cols : List TabColumn) (durs : List NoteDuration)
    (bpm : ℚ) (freqs : List ℚ) (conns : List (ℕ × ℕ)) (now : ℚ) (idx : ℤ) (k : ℕ)
    (h : lastNoteIndexOf cols = none) :
    (runSteps k (start (setScore e₀ cols durs bpm freqs conns) now idx)).1.isPlaying = true ∧
      (runSteps k (start (setScore e₀ cols durs bpm freqs conns) now idx)).2.1 = [] := by
  apply runSteps_empty_score
  · exact start_isPlaying _ _ _
  · rw [start_lastNoteIndex]
    simpa [setScore] using h
  · rw [start_columns]
    intro col hcol
    exact lastNoteIndexOf_none h col (by simpa [setScore] using hcol)

theorem c6_amended_witness :
    lastNoteIndexOf [[Note.num (-1)]] = none ∧
      ((runSteps 2 (start (setScore {} [[Note.num (-1)]] [NoteDuration.d8] 120 [110] []) 0 0)).1.isPlaying = true ∧
        (runSteps 2 (start (setScore {} [[Note.num (-1)]] [NoteDuration.d8] 120 [110] []) 0 0)).2.1 = []) :=
  ⟨by decide, c6_amended {} [[Note.num (-1)]] [NoteDuration.d8] 120 [110] [] 0 0 2 (by decide)⟩

/-- C5 counterexample: a tie marker on an empty source cell is not a no-op.
`setScore` resolves the marker `(0,0)` of `engC5` without ever reading the
source cell (which is `-1`): the link is created, the next note on the
string is registered as a chain target, and its note-on attack is
suppressed — `scheduleNote` of column 1 emits nothing, while it does emit
a tone for the same score with the marker removed (`engC5b`). -/
theorem c5_counterexample :
    (engC5.columns.getD 0 []).getD 0 Note.x = Note.num (-1) ∧
      engC5.connectionMap = [((0, 0), 1)] ∧
      engC5.connectionTargets = [(1, 0)] ∧
      scheduleNote engC5 1 0 = [] ∧
      scheduleNote engC5b 1 0 ≠ [] := by
  refine ⟨rfl, rfl, rfl, ?_, ?_⟩ <;> decide

/-- C5 amended: tie-marker resolution never inspects the source cell.  For
any marker `(c, s)` whose column exists and whose string has a later
non-empty cell at column `i`, `setScore` records `(i, s)` as a chain
target — whether or not the source cell holds a playable note — and the
rendering of column `i` then emits no tone on string `s` (the note-on
attack there is suppressed).  A marker is a no-op only when no later
non-empty cell exists on its string. -/
theorem c5_amended (e₀ : Engine) (cols : List TabColumn) (durs : List NoteDuration)
    (bpm : ℚ) (freqs : List ℚ) (conns : List (ℕ × ℕ)) {c s i : ℕ} (t : ℚ)
    (hmem : (c, s) ∈ conns) (hc : c < cols.length)
    (hfind : findNextNote cols s c = some i) :
    (i, s) ∈ (setScore e₀ cols durs bpm freqs conns).connectionTargets ∧
      ∀ tone ∈ scheduleNote (setScore e₀ cols durs bpm freqs conns) i t, tone.str ≠ s := by
  have h1 : (i, s) ∈ (setScore e₀ cols durs bpm freqs conns).connectionTargets :=
    buildConnections_targets_mem conns hmem hc hfind
  refine ⟨h1, ?_⟩
  intro tone htone heq
  have h3 : isChainTarget (setScore e₀ cols durs bpm freqs conns) i s = true :=
    isChainTarget_of_mem h1
  have h2 : isChainTarget (setScore e₀ cols durs bpm freqs conns) i tone.str = false := by
    unfold scheduleNote at htone
    cases hcol : (setScore e₀ cols durs bpm freqs conns).columns.get? i with
    | none => rw [hcol] at htone; simp at htone
    | some col =>
        rw [hcol] at htone
        exact scheduleTones_not_target col 0 tone htone
  rw [heq] at h2
  rw [h2] at h3
  exact Bool.false_ne_true h3

theorem c5_amended_witness :
    (((0 : ℕ), (0 : ℕ)) ∈ [((0 : ℕ), (0 : ℕ))] ∧
        0 < ([[Note.num (-1)], [Note.num 5]] : List TabColumn).length ∧
        findNextNote [[Note.num (-1)], [Note.num 5]] 0 0 = some 1) ∧
      ((1, 0) ∈ (setScore {} [[Note.num (-1)], [Note.num 5]]
          [NoteDuration.d8, NoteDuration.d8] 120 [440] [(0, 0)]).connectionTargets ∧
        ∀ tone ∈ scheduleNote (setScore {} [[Note.num (-1)], [Note.num 5]]
            [NoteDuration.d8, NoteDuration.d8] 120 [440] [(0, 0)]) 1 0, tone.str ≠ 0) :=
  ⟨⟨by decide, by decide, by decide⟩,
    c5_amended (c := 0) (s := 0) (i := 1) {} [[Note.num (-1)], [Note.num 5]]
      [NoteDuration.d8, NoteDuration.d8] 120 [440] [(0, 0)] 0
      (by decide) (by decide) (by decide)⟩

/-- C9 counterexample: a numeric fret outside `[0, 24]` is not treated as
"no sound".  `scheduleNote` filters only `typeof fret === 'number' && fret
!== -1`, so the out-of-range fret 25 still triggers a tone. -/
theorem c9_counterexample :
    (engC9.columns.getD 0 []).getD 0 Note.x = Note.num 25 ∧
      ¬((0 : ℤ) ≤ 25 ∧ (25 : ℤ) ≤ 24) ∧
      scheduleNote engC9 0 0 ≠ [] := by
  refine ⟨rfl, by decide, ?_⟩
  decide

/-- C9 amended: any numeric fret other than `-1` on a string with a nonzero
frequency triggers a tone (unless the cell is a tie-chain target) — the
value is not range-checked, so frets outside `[0, 24]` sound too; only
`-1` and the non-numeric `'x'` are silent. -/
theorem c9_amended (e : Engine) (c s : ℕ) (t : ℚ) (col : TabColumn) (n : ℤ)
    (hcol : e.columns.get? c = some col) (hcell : col.get? s = some (Note.num n))
    (hn : n ≠ -1) (hf : freqOK e.frequencies s = true)
    (hct : isChainTarget e c s = false) :
    Tone.mk s n t (getChainDurationSeconds e c s) ∈ scheduleNote e c t := by
  unfold scheduleNote
  rw [hcol]
  have := @scheduleTones_mem e c t col 0 s n hcell hn
    (by simpa using hf) (by simpa using hct)
  simpa using this

theorem c9_amended_witness :
    (engC9.columns.get? 0 = some [Note.num 25] ∧
        ([Note.num 25] : TabColumn).get? 0 = some (Note.num 25) ∧
        (25 : ℤ) ≠ -1 ∧ freqOK engC9.frequencies 0 = true ∧
        isChainTarget engC9 0 0 = false) ∧
      Tone.mk 0 25 0 (getChainDurationSeconds engC9 0 0) ∈ scheduleNote engC9 0 0 :=
  ⟨⟨rfl, rfl, by decide, rfl, rfl⟩,
    c9_amended engC9 0 0 0 [Note.num 25] 25 rfl rfl (by decide) rfl rfl⟩

/-- C1 counterexample: on a score whose columns all carry the quarter-note
symbol (`d4`, step span 4), the scheduler still advances the trigger time
by exactly one sixteenth step per column — `nextNote` ignores the
duration symbol — so column 1 fires at `base + 1 * (0.25*60/bpm)`, not at
`base + D_steps * (0.25*60/bpm)` as the claim states. -/
theorem c1_counterexample :
    engC1.durations.getD 1 NoteDuration.d8 = NoteDuration.d4 ∧
      (runSteps 2 (start engC1 0 0)).2.2.map Prod.snd =
        [(start engC1 0 0).nextNoteTime,
          (start engC1 0 0).nextNoteTime + (1 / 4) * (60 / engC1.bpm)] ∧
      (start engC1 0 0).nextNoteTime + (1 / 4) * (60 / engC1.bpm) ≠
        (start engC1 0 0).nextNoteTime +
          (stepsOfDuration NoteDuration.d4 : ℚ) * ((1 / 4) * (60 / engC1.bpm)) := by
  refine ⟨rfl, ?_, ?_⟩
  · have h := runSteps_times 2 (start engC1 0 0) (by decide)
    rw [h]
    have hb : (start engC1 0 0).bpm = engC1.bpm := start_bpm engC1 0 0
    rw [show List.range 2 = [0, 1] from rfl]
    simp [hb]
  · have hbpm : engC1.bpm = 120 := rfl
    rw [hbpm, stepsOfDuration]
    norm_num

/-- C1 amended: for every score and every tempo, the scheduler advances the
trigger clock by exactly one sixteenth step — `0.25 * 60/bpm` seconds —
per rendered column, regardless of the columns' duration symbols, so the
trigger time of the `k`-th rendered column is `base + k * (0.25*60/bpm)`.
(The duration symbols only affect each note's sustain length.) -/
theorem c1_amended (e : Engine) (k : ℕ) (h : (runSteps k e).1.isPlaying = true) :
    (runSteps k e).2.2.map Prod.snd =
      (List.range k).map (fun i : ℕ => e.nextNoteTime + (i : ℚ) * ((1 / 4) * (60 / e.bpm))) :=
  runSteps_times k e h

theorem c1_amended_witness :
    (runSteps 2 (start engC1 0 0)).1.isPlaying = true ∧
      (runSteps 2 (start engC1 0 0)).2.2.map Prod.snd =
        (List.range 2).map (fun i : ℕ =>
          (start engC1 0 0).nextNoteTime +
            (i : ℚ) * ((1 / 4) * (60 / (start engC1 0 0).bpm))) :=
  ⟨by decide, c1_amended (start engC1 0 0) 2 (by decide)⟩

/-!
## Optimizer lemmas
-/

/-- The heart of pitch preservation: for a positive open frequency the
semitone formula is exactly `openPitch + fret`, because multiplying the
frequency by `2 ^ (fret/12)` shifts `12 * log2` by the integer `fret` and
`round` commutes with adding an integer. -/
theorem getSemitone_eq (f : ℝ) (hf : 0 < f) (n : ℤ) : getSemitone f n = openPitch f + n := by
  unfold getSemitone openPitch
  have hx : f * (2:ℝ) ^ ((n:ℝ)/12) / 440 = (f / 440) * (2:ℝ) ^ ((n:ℝ)/12) := by ring
  rw [hx, Real.logb_mul (by positivity) (by positivity),
    Real.logb_rpow (by norm_num : (0:ℝ) < 2) (by norm_num : (2:ℝ) ≠ 1)]
  have harith : (69:ℝ) + 12 * (Real.logb 2 (f/440) + (n:ℝ)/12) =
      (69 + 12 * Real.logb 2 (f/440)) + ((n:ℤ):ℝ) := by push_cast; ring
  rw [harith, round_add_int]

theorem openPitch_440 : openPitch 440 = 69 := by
  unfold openPitch
  rw [show (440:ℝ)/440 = 1 by norm_num, Real.logb_one,
    show (69:ℝ) + 12 * 0 = ((69:ℤ):ℝ) by norm_num, round_intCast]

theorem openPitch_220 : openPitch 220 = 57 := by
  unfold openPitch
  rw [show (220:ℝ)/440 = (2:ℝ)⁻¹ by norm_num, Real.logb_inv,
    Real.logb_self_eq_one,
    show (69:ℝ) + 12 * (-1) = ((57:ℤ):ℝ) by norm_num, round_intCast] <;> norm_num

theorem soundingCellsFrom_bounds :
    ∀ (col : List Note) (k : ℕ) (sn : ℕ × ℤ), sn ∈ soundingCellsFrom k col →
      k ≤ sn.1 ∧ sn.1 < k + col.length := by
  intro col
  induction col with
  | nil => intro k sn h; simp [soundingCellsFrom] at h
  | cons hd tl ih =>
      intro k sn h
      cases hd with
      | x =>
          have := ih (k + 1) sn (by simpa [soundingCellsFrom] using h)
          simp only [List.length_cons]
          omega
      | num n =>
          by_cases hn : -1 < n
          · rw [soundingCellsFrom, if_pos hn] at h
            rcases List.mem_cons.mp h with heq | hmem
            · subst heq; simp only [List.length_cons]; omega
            · have := ih (k + 1) _ hmem
              simp only [List.length_cons]
              omega
          · rw [soundingCellsFrom, if_neg hn] at h
            have := ih (k + 1) sn h
            simp only [List.length_cons]
            omega

theorem colPitchesR_eq (tuning : List ℝ) (hpos : ∀ f ∈ tuning, 0 < f) (col : List Note)
    (hlen : col.length ≤ tuning.length) :
    colPitchesR tuning col = colPitches (tuning.map openPitch) col := by
  unfold colPitchesR colPitches
  apply List.map_congr_left
  intro sn hsn
  have hb := soundingCellsFrom_bounds col 0 sn hsn
  have hlt : sn.1 < tuning.length := by omega
  have hget : tuning.getD sn.1 1 = tuning.get ⟨sn.1, hlt⟩ := by
    rw [List.getD_eq_get?, List.get?_eq_get hlt]
    rfl
  have hmget : (tuning.map openPitch).getD sn.1 0 = openPitch (tuning.get ⟨sn.1, hlt⟩) := by
    rw [List.getD_eq_get?, List.get?_map, List.get?_eq_get hlt]
    rfl
  rw [hget, hmget, getSemitone_eq _ (hpos _ (tuning.get_mem _ _))]

theorem seqFrom_congr (f g : List Note → List ℤ) :
    ∀ (cols : List (List Note)) (k : ℕ), (∀ col ∈ cols, f col = g col) →
      seqFrom f k cols = seqFrom g k cols := by
  intro cols
  induction cols with
  | nil => intro k _; rfl
  | cons hd tl ih =>
      intro k h
      have hhd : f hd = g hd := h hd (by simp)
      have htl := ih (k + 1) (fun col hc => h col (List.mem_cons_of_mem _ hc))
      rw [seqFrom, seqFrom, hhd, htl]

theorem seqOfR_eq (tuning : List ℝ) (hpos : ∀ f ∈ tuning, 0 < f) (cols : List (List Note))
    (hlen : ∀ col ∈ cols, col.length ≤ tuning.length) :
    seqOfR tuning cols = seqOf (tuning.map openPitch) cols := by
  unfold seqOfR seqOf
  exact seqFrom_congr _ _ cols 0 (fun col hc => colPitchesR_eq tuning hpos col (hlen col hc))

/-- The real-frequency optimizer agrees with the integer-pitch pipeline once
the open pitches are rounded (for positive tunings and well-formed column
lengths). -/
theorem optimizeFingeringR_eq (tuning : List ℝ) (stringCount : ℕ) (cols : List (List Note))
    (hpos : ∀ f ∈ tuning, 0 < f) (hlen : ∀ col ∈ cols, col.length ≤ tuning.length) :
    optimizeFingeringR tuning stringCount cols =
      optimizeFingering (tuning.map openPitch) stringCount cols := by
  unfold optimizeFingeringR optimizeFingering
  rw [seqOfR_eq tuning hpos cols hlen]

theorem zip_get?_some {α β : Type} :
    ∀ (a : List α) (b : List β) (i : ℕ) (x : α) (y : β),
      (a.zip b).get? i = some (x, y) ↔ (a.get? i = some x ∧ b.get? i = some y) := by
  intro a
  induction a with
  | nil => intro b i x y; simp
  | cons ha ta ih =>
      intro b i x y
      cases b with
      | nil => simp
      | cons hb tb =>
          cases i with
          | zero => simp [List.zip_cons_cons, Prod.ext_iff]
          | succ i => simpa using ih tb i x y

theorem enumFrom_mem_get? {α : Type} :
    ∀ (l : List α) (k i : ℕ) (pr : α), (i, pr) ∈ List.enumFrom k l →
      k ≤ i ∧ l.get? (i - k) = some pr := by
  intro l
  induction l with
  | nil => intro k i pr h; simp [List.enumFrom] at h
  | cons hd tl ih =>
      intro k i pr h
      rw [List.enumFrom] at h
      rcases List.mem_cons.mp h with heq | hmem
      · rw [Prod.mk.injEq] at heq
        obtain ⟨h1, h2⟩ := heq
        subst h1; subst h2
        simp
      · obtain ⟨hk, hget⟩ := ih (k + 1) i pr hmem
        refine ⟨by omega, ?_⟩
        have : i - k = (i - (k + 1)) + 1 := by omega
        rw [this, List.get?_cons_succ]
        exact hget

theorem btList_length : ∀ (rows : List (List NoteOption × List ℤ)) (ci : Option ℤ),
    (btList rows ci).length = rows.length := by
  intro rows
  induction rows with
  | nil => intro ci; rfl
  | cons hd tl ih => intro ci; obtain ⟨g, p⟩ := hd; simp [btList, ih]

theorem idxGet_some {α : Type} {l : List α} {ci : Option ℤ} {x : α}
    (h : idxGet l ci = some x) : x ∈ l := by
  cases ci with
  | none => simp [idxGet] at h
  | some i =>
      rw [idxGet] at h
      by_cases hi : 0 ≤ i
      · rw [if_pos hi] at h
        exact List.get?_mem h
      · rw [if_neg hi] at h
        exact absurd h (by simp)

theorem btList_get?_mem :
    ∀ (rows : List (List NoteOption × List ℤ)) (ci : Option ℤ) (m : ℕ) (o : Option NoteOption),
      (btList rows ci).get? m = some o → ∀ x, o = some x →
        ∃ row, rows.get? m = some row ∧ x ∈ row.1 := by
  intro rows
  induction rows with
  | nil => intro ci m o h; simp [btList] at h
  | cons hd tl ih =>
      intro ci m o h x hx
      obtain ⟨g, p⟩ := hd
      cases m with
      | zero =>
          rw [btList, List.get?_cons_zero, Option.some_inj] at h
          subst h
          exact ⟨(g, p), rfl, idxGet_some hx⟩
      | succ m =>
          rw [btList, List.get?_cons_succ] at h
          obtain ⟨row, hrow, hmem⟩ := ih (idxGet p ci) m o h x hx
          exact ⟨row, by simpa using hrow, hmem⟩

theorem btList_append :
    ∀ (a b : List (List NoteOption × List ℤ)) (ci : Option ℤ),
      btList (a ++ b) ci = btList a ci ++ btList b (btCi a ci) := by
  intro a
  induction a with
  | nil => intro b ci; rfl
  | cons hd tl ih =>
      intro b ci
      obtain ⟨g, p⟩ := hd
      simp [btList, btCi, ih]

theorem bestPrevFold_inv (c : NoteOption) (Q : Cost × ℤ → Prop) :
    ∀ (pairs : List (ℕ × (NoteOption × Cost))) (acc : Cost × ℤ),
      (acc.1 < ⊤ → Q acc) →
      (∀ pr ∈ pairs,
        (pr.2.2 + ((moveCost pr.2.1 c : ℚ) : Cost)) < ⊤ →
          Q (pr.2.2 + ((moveCost pr.2.1 c : ℚ) : Cost), (pr.1 : ℤ))) →
      (bestPrevFold c pairs acc).1 < ⊤ → Q (bestPrevFold c pairs acc) := by
  intro pairs
  induction pairs with
  | nil => intro acc hacc _ hfin; exact hacc hfin
  | cons hd tl ih =>
      intro acc hacc hprs hfin
      obtain ⟨idx, prevOpt, prevCost⟩ := hd
      rw [bestPrevFold] at hfin ⊢
      apply ih _ _ _ hfin
      · intro hlt
        by_cases hc : (prevCost + ((moveCost prevOpt c : ℚ) : Cost)) < acc.1
        · rw [if_pos hc] at hlt ⊢
          exact hprs (idx, prevOpt, prevCost) (List.mem_cons_self _ _) hlt
        · rw [if_neg hc] at hlt ⊢
          exact hacc hlt
      · intro pr hpr
        exact hprs pr (List.mem_cons_of_mem _ hpr)

theorem bestPrevFold_lt_top (c : NoteOption) :
    ∀ (pairs : List (ℕ × (NoteOption × Cost))) (acc : Cost × ℤ),
      ((∃ pr ∈ pairs, (pr.2.2 + ((moveCost pr.2.1 c : ℚ) : Cost)) < ⊤) ∨ acc.1 < ⊤) →
      (bestPrevFold c pairs acc).1 < ⊤ := by
  intro pairs
  induction pairs with
  | nil =>
      intro acc h
      rcases h with ⟨pr, hpr, _⟩ | h
      · simp at hpr
      · exact h
  | cons hd tl ih =>
      intro acc h
      obtain ⟨idx, prevOpt, prevCost⟩ := hd
      rw [bestPrevFold]
      set tc := prevCost + ((moveCost prevOpt c : ℚ) : Cost) with htc
      rcases h with ⟨pr, hpr, hfin⟩ | hacc
      · rcases List.mem_cons.mp hpr with heq | hmem
        · subst heq
          apply ih
          right
          by_cases hlt : tc < acc.1
          · rw [if_pos hlt]; exact hfin
          · rw [if_neg hlt]
            exact lt_of_le_of_lt (not_lt.mp hlt) hfin
        · exact ih _ (Or.inl ⟨pr, hmem, hfin⟩)
      · apply ih
        right
        by_cases hlt : tc < acc.1
        · rw [if_pos hlt]; exact lt_trans hlt hacc
        · rw [if_neg hlt]; exact hacc

theorem bestFinalFold_inv (Q : Cost × ℤ → Prop) :
    ∀ (pairs : List (ℕ × Cost)) (acc : Cost × ℤ),
      (acc.1 < ⊤ → Q acc) →
      (∀ pr ∈ pairs, pr.2 < ⊤ → Q (pr.2, (pr.1 : ℤ))) →
      (bestFinalFold pairs acc).1 < ⊤ → Q (bestFinalFold pairs acc) := by
  intro pairs
  induction pairs with
  | nil => intro acc hacc _ hfin; exact hacc hfin
  | cons hd tl ih =>
      intro acc hacc hprs hfin
      obtain ⟨idx, cst⟩ := hd
      rw [bestFinalFold] at hfin ⊢
      apply ih _ _ _ hfin
      · intro hlt
        by_cases hc : cst < acc.1
        · rw [if_pos hc] at hlt ⊢
          exact hprs (idx, cst) (List.mem_cons_self _ _) hlt
        · rw [if_neg hc] at hlt ⊢
          exact hacc hlt
      · intro pr hpr
        exact hprs pr (List.mem_cons_of_mem _ hpr)

theorem bestFinalFold_lt_top :
    ∀ (pairs : List (ℕ × Cost)) (acc : Cost × ℤ),
      ((∃ pr ∈ pairs, pr.2 < ⊤) ∨ acc.1 < ⊤) → (bestFinalFold pairs acc).1 < ⊤ := by
  intro pairs
  induction pairs with
  | nil =>
      intro acc h
      rcases h with ⟨pr, hpr, _⟩ | h
      · simp at hpr
      · exact h
  | cons hd tl ih =>
      intro acc h
      obtain ⟨idx, cst⟩ := hd
      rw [bestFinalFold]
      rcases h with ⟨pr, hpr, hfin⟩ | hacc
      · rcases List.mem_cons.mp hpr with heq | hmem
        · subst heq
          apply ih
          right
          by_cases hlt : cst < acc.1
          · rw [if_pos hlt]; exact hfin
          · rw [if_neg hlt]
            exact lt_of_le_of_lt (not_lt.mp hlt) hfin
        · exact ih _ (Or.inl ⟨pr, hmem, hfin⟩)
      · apply ih
        right
        by_cases hlt : cst < acc.1
        · rw [if_pos hlt]; exact lt_trans hlt hacc
        · rw [if_neg hlt]; exact hacc

theorem dpStep_fst (pg : List NoteOption) (pd : List Cost) (g : List NoteOption) :
    (dpStep pg pd g).1 =
      g.map (fun c => (bestPrevFold c (List.enumFrom 0 (pg.zip pd)) (⊤, -1)).1) := by
  simp [dpStep, List.unzip_eq_map, List.map_map, Function.comp]

theorem dpStep_snd (pg : List NoteOption) (pd : List Cost) (g : List NoteOption) :
    (dpStep pg pd g).2 =
      g.map (fun c => (bestPrevFold c (List.enumFrom 0 (pg.zip pd)) (⊤, -1)).2) := by
  simp [dpStep, List.unzip_eq_map, List.map_map, Function.comp]

theorem dpStep_fst_length (pg : List NoteOption) (pd : List Cost) (g : List NoteOption) :
    (dpStep pg pd g).1.length = g.length := by
  rw [dpStep_fst, List.length_map]

theorem dpStep_snd_length (pg : List NoteOption) (pd : List Cost) (g : List NoteOption) :
    (dpStep pg pd g).2.length = g.length := by
  rw [dpStep_snd, List.length_map]

theorem pairs_exists_finite {pg : List NoteOption} {pd : List Cost}
    (hlen : pd.length = pg.length) (hfin : ∀ pc ∈ pd, pc < ⊤) (hne : pg ≠ [])
    (c : NoteOption) :
    ∃ pr ∈ List.enumFrom 0 (pg.zip pd),
      (pr.2.2 + ((moveCost pr.2.1 c : ℚ) : Cost)) < ⊤ := by
  have hzlen : (pg.zip pd).length = pg.length := by
    rw [List.length_zip, hlen, Nat.min_self]
  have hzne : pg.zip pd ≠ [] := by
    intro hcontra
    apply hne
    have hlz := congrArg List.length hcontra
    rw [hzlen] at hlz
    exact List.length_eq_zero.mp hlz
  have hene : List.enumFrom 0 (pg.zip pd) ≠ [] := by
    intro hcontra
    apply hzne
    have hle := congrArg List.length hcontra
    rw [List.enumFrom_length] at hle
    exact List.length_eq_zero.mp hle
  obtain ⟨pr, hpr⟩ := List.exists_mem_of_ne_nil _ hene
  refine ⟨pr, hpr, ?_⟩
  obtain ⟨i, po, pc⟩ := pr
  obtain ⟨-, hget⟩ := enumFrom_mem_get? _ 0 i (po, pc) hpr
  rw [Nat.sub_zero] at hget
  have hpd : pd.get? i = some pc := ((zip_get?_some pg pd i po pc).mp hget).2
  have hfinpc : pc < ⊤ := hfin pc (List.get?_mem hpd)
  rw [WithTop.add_lt_top]
  exact ⟨hfinpc, WithTop.coe_lt_top _⟩

theorem dpStep_dp_lt_top {pg : List NoteOption} {pd : List Cost} (g : List NoteOption)
    (hlen : pd.length = pg.length) (hfin : ∀ pc ∈ pd, pc < ⊤) (hne : pg ≠ []) :
    ∀ dc ∈ (dpStep pg pd g).1, dc < ⊤ := by
  intro dc hdc
  rw [dpStep_fst] at hdc
  obtain ⟨c, _, rfl⟩ := List.mem_map.mp hdc
  exact bestPrevFold_lt_top c _ _ (Or.inl (pairs_exists_finite hlen hfin hne c))

theorem dpStep_path_spec {pg : List NoteOption} {pd : List Cost} (g : List NoteOption)
    (hlen : pd.length = pg.length) (hfin : ∀ pc ∈ pd, pc < ⊤) (hne : pg ≠ []) :
    ∀ (j : ℕ) (v : ℤ), (dpStep pg pd g).2.get? j = some v →
      0 ≤ v ∧ v.toNat < pg.length := by
  intro j v hv
  rw [dpStep_snd, List.get?_map] at hv
  cases hg : g.get? j with
  | none => rw [hg] at hv; simp at hv
  | some c =>
      rw [hg] at hv
      simp only [Option.map_some', Option.some_inj] at hv
      have hfin2 : (bestPrevFold c (List.enumFrom 0 (pg.zip pd)) (⊤, -1)).1 < ⊤ :=
        bestPrevFold_lt_top c _ _ (Or.inl (pairs_exists_finite hlen hfin hne c))
      have hq := bestPrevFold_inv c (fun w => 0 ≤ w.2 ∧ w.2.toNat < pg.length)
        (List.enumFrom 0 (pg.zip pd)) (⊤, -1)
        (fun hcontra => absurd hcontra (lt_irrefl _)) ?_ hfin2
      · rw [← hv]
        exact hq
      · intro pr hpr _
        obtain ⟨i, po, pc⟩ := pr
        obtain ⟨-, hget⟩ := enumFrom_mem_get? _ 0 i (po, pc) hpr
        rw [Nat.sub_zero] at hget
        have hi : i < (pg.zip pd).length := (List.get?_eq_some.mp hget).1
        rw [List.length_zip, hlen, Nat.min_self] at hi
        refine ⟨Int.natCast_nonneg i, ?_⟩
        simpa using hi

theorem dpRowsGo_length : ∀ (gs : List (List NoteOption)) (pg : List NoteOption) (pd : List Cost),
    (dpRowsGo pg pd gs).length = gs.length := by
  intro gs
  induction gs with
  | nil => intro pg pd; rfl
  | cons g gs ih => intro pg pd; simp [dpRowsGo, ih]

theorem dpRows_length (gs : List (List NoteOption)) : (dpRows gs).length = gs.length := by
  cases gs with
  | nil => rfl
  | cons g gs => simp [dpRows, dpRowsGo_length]

/-- Backtracking validity: starting from a valid index into the last DP row
and walking the recorded predecessors, every lookup succeeds, and the
index the walk hands to the initial row's `path` is a valid index into the
first graph row. -/
theorem bt_valid :
    ∀ (rest : List (List NoteOption)) (g0 : List NoteOption) (dp0 : List Cost) (p0 : List ℤ),
      dp0.length = g0.length → (∀ c ∈ dp0, c < ⊤) → g0 ≠ [] → (∀ g ∈ rest, g ≠ []) →
      ∀ v : ℤ, 0 ≤ v → v.toNat < (rest.getLastD g0).length →
      ∃ w : ℤ, 0 ≤ w ∧ w.toNat < g0.length ∧
        (∀ o ∈ btList (((g0, p0) :: rest.zip ((dpRowsGo g0 dp0 rest).map Prod.snd)).reverse) (some v),
          o.isSome = true) ∧
        btCi (((g0, p0) :: rest.zip ((dpRowsGo g0 dp0 rest).map Prod.snd)).reverse) (some v) =
          idxGet p0 (some w) := by
  intro rest
  induction rest with
  | nil =>
      intro g0 dp0 p0 _ _ _ _ v hv0 hvlt
      refine ⟨v, hv0, by simpa using hvlt, ?_, ?_⟩
      · intro o ho
        have ho2 : o = idxGet g0 (some v) := by
          simpa [dpRowsGo, btList] using ho
        subst ho2
        rw [idxGet, if_pos hv0]
        rw [List.get?_eq_get (by simpa using hvlt)]
        rfl
      · rfl
  | cons g1 rest ih =>
      intro g0 dp0 p0 hlen hfin hne hne2 v hv0 hvlt
      have hg1ne : g1 ≠ [] := hne2 g1 (by simp)
      have hrestne : ∀ g ∈ rest, g ≠ [] := fun g hg => hne2 g (List.mem_cons_of_mem _ hg)
      set r1 := dpStep g0 dp0 g1 with hr1
      have hdp1len : r1.1.length = g1.length := dpStep_fst_length g0 dp0 g1
      have hdp1fin : ∀ c ∈ r1.1, c < ⊤ := dpStep_dp_lt_top g1 hlen hfin hne
      have hvlt2 : v.toNat < (rest.getLastD g1).length := by
        rwa [List.getLastD_cons] at hvlt
      obtain ⟨w1, hw10, hw1lt, hallsome, hci⟩ :=
        ih g1 r1.1 r1.2 hdp1len hdp1fin hg1ne hrestne v hv0 hvlt2
      -- the list for the bigger chain
      have hexpand :
          ((g0, p0) :: (g1 :: rest).zip ((dpRowsGo g0 dp0 (g1 :: rest)).map Prod.snd)).reverse =
            ((g1, r1.2) :: rest.zip ((dpRowsGo g1 r1.1 rest).map Prod.snd)).reverse ++ [(g0, p0)] := by
        rw [dpRowsGo]
        simp [List.reverse_cons]
      -- the index handed to row 0
      have hp1len : r1.2.length = g1.length := dpStep_snd_length g0 dp0 g1
      have hw1lt' : w1.toNat < r1.2.length := by rw [hp1len]; exact hw1lt
      obtain ⟨w, hw⟩ : ∃ w, r1.2.get? w1.toNat = some w :=
        ⟨_, List.get?_eq_get hw1lt'⟩
      have hwspec : 0 ≤ w ∧ w.toNat < g0.length :=
        dpStep_path_spec g1 hlen hfin hne w1.toNat w hw
      have hci1 : idxGet r1.2 (some w1) = some w := by
        rw [idxGet, if_pos hw10, hw]
      refine ⟨w, hwspec.1, hwspec.2, ?_, ?_⟩
      · intro o ho
        rw [hexpand, btList_append] at ho
        rcases List.mem_append.mp ho with hmem | hmem
        · exact hallsome o hmem
        · rw [hci, hci1] at hmem
          have hmem2 : o = idxGet g0 (some w) := by
            simpa [btList] using hmem
          subst hmem2
          rw [idxGet, if_pos hwspec.1]
          rw [List.get?_eq_get hwspec.2]
          rfl
      · rw [hexpand]
        have hbtci : ∀ (a b : List (List NoteOption × List ℤ)) (ci : Option ℤ),
            btCi (a ++ b) ci = btCi b (btCi a ci) := by
          intro a
          induction a with
          | nil => intro b ci; rfl
          | cons hd tl ih2 =>
              intro b ci
              obtain ⟨g, p⟩ := hd
              simp [btCi, ih2]
        rw [hbtci, hci, hci1]
        rfl

theorem bestFinalIdx_spec (dpLast : List Cost) (hne : dpLast ≠ [])
    (hfin : ∀ c ∈ dpLast, c < ⊤) :
    0 ≤ bestFinalIdx dpLast ∧ (bestFinalIdx dpLast).toNat < dpLast.length := by
  have hene : List.enumFrom 0 dpLast ≠ [] := by
    intro hcontra
    apply hne
    have hle := congrArg List.length hcontra
    rw [List.enumFrom_length] at hle
    exact List.length_eq_zero.mp hle
  obtain ⟨pr, hpr⟩ := List.exists_mem_of_ne_nil _ hene
  have hexfin : ∃ pr ∈ List.enumFrom 0 dpLast, pr.2 < ⊤ := by
    obtain ⟨i, cst⟩ := pr
    obtain ⟨-, hget⟩ := enumFrom_mem_get? _ 0 i cst hpr
    rw [Nat.sub_zero] at hget
    exact ⟨(i, cst), hpr, hfin cst (List.get?_mem hget)⟩
  have hlt := bestFinalFold_lt_top (List.enumFrom 0 dpLast) (⊤, -1) (Or.inl hexfin)
  have hq := bestFinalFold_inv (fun w => 0 ≤ w.2 ∧ w.2.toNat < dpLast.length)
    (List.enumFrom 0 dpLast) (⊤, -1)
    (fun hcontra => absurd hcontra (lt_irrefl _)) ?_ hlt
  · exact hq
  · intro pr2 hpr2 _
    obtain ⟨i, cst⟩ := pr2
    obtain ⟨-, hget⟩ := enumFrom_mem_get? _ 0 i cst hpr2
    rw [Nat.sub_zero] at hget
    have hi : i < dpLast.length := (List.get?_eq_some.mp hget).1
    exact ⟨Int.natCast_nonneg i, by simpa using hi⟩

theorem applyMapping_isSome (sc : ℕ) :
    ∀ (m : List (ℕ × Option NoteOption)) (cols : List (List Note)),
      (∀ pr ∈ m, pr.2 ≠ none) → (applyMapping sc cols m).isSome = true := by
  intro m
  induction m with
  | nil => intro cols _; rfl
  | cons hd tl ih =>
      intro cols h
      obtain ⟨c, o⟩ := hd
      cases o with
      | none => exact absurd rfl (h (c, none) (by simp))
      | some x => exact ih _ (fun pr hpr => h pr (List.mem_cons_of_mem _ hpr))

theorem applyMapping_no_none (sc : ℕ) :
    ∀ (m : List (ℕ × Option NoteOption)) (cols out : List (List Note)),
      applyMapping sc cols m = some out → ∀ pr ∈ m, pr.2 ≠ none := by
  intro m
  induction m with
  | nil => intro cols out _ pr hpr; simp at hpr
  | cons hd tl ih =>
      intro cols out hsome pr hpr
      obtain ⟨c, o⟩ := hd
      cases o with
      | none => rw [applyMapping] at hsome; exact absurd hsome (by simp)
      | some x =>
          rcases List.mem_cons.mp hpr with heq | hmem
          · subst heq; simp
          · exact ih _ out hsome pr hmem

theorem applyMapping_length (sc : ℕ) :
    ∀ (m : List (ℕ × Option NoteOption)) (cols out : List (List Note)),
      applyMapping sc cols m = some out → out.length = cols.length := by
  intro m
  induction m with
  | nil => intro cols out h; rw [applyMapping, Option.some_inj] at h; rw [← h]
  | cons hd tl ih =>
      intro cols out h
      obtain ⟨c, o⟩ := hd
      cases o with
      | none => rw [applyMapping] at h; exact absurd h (by simp)
      | some x =>
          rw [applyMapping] at h
          have := ih _ out h
          rwa [List.length_set] at this

theorem applyMapping_preserve (sc : ℕ) :
    ∀ (m : List (ℕ × Option NoteOption)) (cols out : List (List Note)) (c : ℕ),
      applyMapping sc cols m = some out → (∀ pr ∈ m, pr.1 ≠ c) →
      out.get? c = cols.get? c := by
  intro m
  induction m with
  | nil => intro cols out c h _; rw [applyMapping, Option.some_inj] at h; rw [← h]
  | cons hd tl ih =>
      intro cols out c h hd_ne
      obtain ⟨c', o⟩ := hd
      cases o with
      | none => rw [applyMapping] at h; exact absurd h (by simp)
      | some x =>
          rw [applyMapping] at h
          have hne : c' ≠ c := hd_ne (c', some x) (by simp)
          have := ih _ out c h (fun pr hpr => hd_ne pr (List.mem_cons_of_mem _ hpr))
          rw [this, List.get?_set_ne _ _ hne]

theorem applyMapping_written (sc : ℕ) :
    ∀ (m : List (ℕ × Option NoteOption)) (cols out : List (List Note)) (j c : ℕ)
      (x : NoteOption), applyMapping sc cols m = some out → m.get? j = some (c, some x) →
      (∀ (j2 : ℕ) (pr : ℕ × Option NoteOption), m.get? j2 = some pr → j2 ≠ j → pr.1 ≠ c) →
      c < cols.length → out.get? c = some (optColumn sc x) := by
  intro m
  induction m with
  | nil => intro cols out j c x _ hget; simp at hget
  | cons hd tl ih =>
      intro cols out j c x happ hget hdist hclt
      obtain ⟨c', o⟩ := hd
      cases j with
      | zero =>
          rw [List.get?_cons_zero, Option.some_inj] at hget
          injection hget with h1 h2
          subst h1
          subst h2
          rw [applyMapping] at happ
          have hrest : ∀ pr ∈ tl, pr.1 ≠ c' := by
            intro pr hpr
            obtain ⟨j2, hj2⟩ := List.mem_iff_get?.mp hpr
            exact hdist (j2 + 1) pr (by simpa using hj2) (by omega)
          rw [applyMapping_preserve sc tl _ out c' happ hrest]
          exact List.get?_set_eq_of_lt _ hclt
      | succ j =>
          cases o with
          | none => rw [applyMapping] at happ; exact absurd happ (by simp)
          | some x' =>
              rw [applyMapping] at happ
              have hc' : c' ≠ c := hdist 0 (c', some x') rfl (by omega)
              apply ih _ out j c x happ (by simpa using hget)
              · intro j2 pr hj2 hne
                exact hdist (j2 + 1) pr (by simpa using hj2) (by omega)
              · rwa [List.length_set]

theorem seqFrom_mem (f : List Note → List ℤ) :
    ∀ (cols : List (List Note)) (k : ℕ) (i : ℕ) (p : ℤ), (i, p) ∈ seqFrom f k cols →
      k ≤ i ∧ ∃ col, cols.get? (i - k) = some col ∧ f col = [p] := by
  intro cols
  induction cols with
  | nil => intro k i p h; simp [seqFrom] at h
  | cons hd tl ih =>
      intro k i p h
      rw [seqFrom] at h
      cases hf : f hd with
      | nil =>
          rw [hf] at h
          obtain ⟨hk, col, hcol, hfc⟩ := ih (k + 1) i p h
          refine ⟨by omega, col, ?_, hfc⟩
          rw [show i - k = (i - (k + 1)) + 1 by omega, List.get?_cons_succ]
          exact hcol
      | cons q qs =>
          rw [hf] at h
          cases qs with
          | nil =>
              rcases List.mem_cons.mp h with heq | hmem
              · injection heq with h1 h2
                subst h1
                subst h2
                exact ⟨le_refl _, hd, by simp, hf⟩
              · obtain ⟨hk, col, hcol, hfc⟩ := ih (k + 1) i p hmem
                refine ⟨by omega, col, ?_, hfc⟩
                rw [show i - k = (i - (k + 1)) + 1 by omega, List.get?_cons_succ]
                exact hcol
          | cons q2 qs2 =>
              obtain ⟨hk, col, hcol, hfc⟩ := ih (k + 1) i p h
              refine ⟨by omega, col, ?_, hfc⟩
              rw [show i - k = (i - (k + 1)) + 1 by omega, List.get?_cons_succ]
              exact hcol

theorem seqFrom_mem_of (f : List Note → List ℤ) :
    ∀ (cols : List (List Note)) (k : ℕ) (j : ℕ) (col : List Note) (p : ℤ),
      cols.get? j = some col → f col = [p] → (k + j, p) ∈ seqFrom f k cols := by
  intro cols
  induction cols with
  | nil => intro k j col p h; simp at h
  | cons hd tl ih =>
      intro k j col p hget hf
      cases j with
      | zero =>
          rw [List.get?_cons_zero, Option.some_inj] at hget
          subst hget
          rw [seqFrom, hf]
          simp
      | succ j =>
          rw [List.get?_cons_succ] at hget
          have hmem := ih (k + 1) j col p hget hf
          rw [show k + (j + 1) = (k + 1) + j by omega]
          rw [seqFrom]
          cases hfhd : f hd with
          | nil => exact hmem
          | cons q qs =>
              cases qs with
              | nil => exact List.mem_cons_of_mem _ hmem
              | cons q2 qs2 => exact hmem

theorem seqFrom_fst_lower (f : List Note → List ℤ) :
    ∀ (cols : List (List Note)) (k : ℕ) (pr : ℕ × ℤ), pr ∈ seqFrom f k cols → k ≤ pr.1 := by
  intro cols k pr h
  obtain ⟨hk, -⟩ := seqFrom_mem f cols k pr.1 pr.2 h
  exact hk

theorem seqFrom_pairwise (f : List Note → List ℤ) :
    ∀ (cols : List (List Note)) (k : ℕ),
      List.Pairwise (fun a b : ℕ × ℤ => a.1 < b.1) (seqFrom f k cols) := by
  intro cols
  induction cols with
  | nil => intro k; simp [seqFrom]
  | cons hd tl ih =>
      intro k
      rw [seqFrom]
      cases hf : f hd with
      | nil => exact ih (k + 1)
      | cons q qs =>
          cases qs with
          | nil =>
              refine List.Pairwise.cons ?_ (ih (k + 1))
              intro pr hpr
              have := seqFrom_fst_lower f tl (k + 1) pr hpr
              simp only []
              omega
          | cons q2 qs2 => exact ih (k + 1)

theorem mkOptionsFrom_mem (target : ℤ) :
    ∀ (ops : List ℤ) (k : ℕ) (o : NoteOption), o ∈ mkOptionsFrom target k ops →
      ∃ (j : ℕ) (op : ℤ), ops.get? j = some op ∧ o.strIndex = k + j ∧
        o.fret = target - op ∧ 0 ≤ o.fret ∧ o.fret ≤ 24 ∧ o.semitone = target := by
  intro ops
  induction ops with
  | nil => intro k o h; simp [mkOptionsFrom] at h
  | cons op0 rest ih =>
      intro k o h
      rw [mkOptionsFrom] at h
      by_cases hc : 0 ≤ target - op0 ∧ target - op0 ≤ 24
      · rw [if_pos hc] at h
        rcases List.mem_cons.mp h with heq | hmem
        · subst heq
          exact ⟨0, op0, rfl, by simp, rfl, hc.1, hc.2, rfl⟩
        · obtain ⟨j, op, hget, hstr, hfret, h0, h24, hsemi⟩ := ih (k + 1) o hmem
          exact ⟨j + 1, op, by simpa using hget, by omega, hfret, h0, h24, hsemi⟩
      · rw [if_neg hc] at h
        obtain ⟨j, op, hget, hstr, hfret, h0, h24, hsemi⟩ := ih (k + 1) o h
        exact ⟨j + 1, op, by simpa using hget, by omega, hfret, h0, h24, hsemi⟩

theorem colPitches_length (ops : List ℤ) (col : List Note) :
    (colPitches ops col).length = (soundingCells col).length := by
  rw [colPitches, List.length_map]

theorem getLastD_map {α β : Type} (f : α → β) :
    ∀ (l : List α) (d : α), (l.map f).getLastD (f d) = f (l.getLastD d) := by
  intro l
  induction l with
  | nil => intro d; rfl
  | cons a l ih =>
      intro d
      rw [List.map_cons, List.getLastD_cons, List.getLastD_cons, ih]

theorem getLastD_mem {α : Type} :
    ∀ (l : List α) (d : α), l = [] ∨ l.getLastD d ∈ l := by
  intro l
  induction l with
  | nil => intro d; left; rfl
  | cons a l ih =>
      intro d
      right
      rw [List.getLastD_cons]
      rcases ih a with hnil | hmem
      · subst hnil; simp
      · exact List.mem_cons_of_mem _ hmem

theorem forall₂_getLastD {α β : Type} (R : α → β → Prop) :
    ∀ (as : List α) (bs : List β) (a : α) (b : β),
      List.Forall₂ R as bs → R a b → R (as.getLastD a) (bs.getLastD b) := by
  intro as
  induction as with
  | nil =>
      intro bs a b hf hab
      cases hf
      exact hab
  | cons a' as ih =>
      intro bs a b hf hab
      cases hf with
      | cons hhd htl =>
          rw [List.getLastD_cons, List.getLastD_cons]
          exact ih _ a' _ htl hhd

theorem dpRowsGo_forall :
    ∀ (gs : List (List NoteOption)) (pg : List NoteOption) (pd : List Cost),
      pd.length = pg.length → (∀ c ∈ pd, c < ⊤) → pg ≠ [] → (∀ g ∈ gs, g ≠ []) →
      List.Forall₂ (fun g row => (row : List Cost × List ℤ).1.length = g.length ∧
        ∀ c ∈ row.1, c < ⊤) gs (dpRowsGo pg pd gs) := by
  intro gs
  induction gs with
  | nil => intro pg pd _ _ _ _; exact List.Forall₂.nil
  | cons g gs ih =>
      intro pg pd hlen hfin hne hne2
      rw [dpRowsGo]
      refine List.Forall₂.cons ⟨dpStep_fst_length pg pd g, dpStep_dp_lt_top g hlen hfin hne⟩ ?_
      exact ih g _ (dpStep_fst_length pg pd g) (dpStep_dp_lt_top g hlen hfin hne)
        (hne2 g (by simp)) (fun g' hg' => hne2 g' (List.mem_cons_of_mem _ hg'))

theorem optimizeFrom_eq_of (ops : List ℤ) (sc : ℕ) (cols : List (List Note))
    (seq : List (ℕ × ℤ)) (h2 : ¬ seq.length < 2) :
    optimizeFrom ops sc cols seq =
      applyMapping sc cols ((seq.map Prod.fst).zip
        ((btList (((seq.map (fun ip => mkOptions ops ip.2)).zip
            ((dpRows (seq.map (fun ip => mkOptions ops ip.2))).map Prod.snd)).reverse)
          (some (bestFinalIdx (((dpRows (seq.map (fun ip => mkOptions ops ip.2))).map
            Prod.fst).getLastD [])))).reverse)) := by
  rw [optimizeFrom, if_neg h2]

theorem optimizeFrom_spec (ops : List ℤ) (sc : ℕ) (cols : List (List Note))
    (seq : List (ℕ × ℤ)) (out : List (List Note)) (h2 : ¬ seq.length < 2)
    (hpair : List.Pairwise (fun a b : ℕ × ℤ => a.1 < b.1) seq)
    (happ : optimizeFrom ops sc cols seq = some out) :
    (∀ c : ℕ, (∀ pr ∈ seq, pr.1 ≠ c) → out.get? c = cols.get? c) ∧
    (∀ (j c : ℕ) (p : ℤ), seq.get? j = some (c, p) → c < cols.length →
      ∃ x, x ∈ mkOptions ops p ∧ out.get? c = some (optColumn sc x)) := by
  rw [optimizeFrom_eq_of ops sc cols seq h2] at happ
  set graph := seq.map (fun ip => mkOptions ops ip.2) with hgraph
  set rows := dpRows graph with hrows
  set bi := bestFinalIdx ((rows.map Prod.fst).getLastD []) with hbi
  set revRows := (graph.zip (rows.map Prod.snd)).reverse with hrevRows
  set opts := (btList revRows (some bi)).reverse with hopts
  set mapping := (seq.map Prod.fst).zip opts with hmapping
  have hglen : graph.length = seq.length := by rw [hgraph, List.length_map]
  have hrowslen : rows.length = graph.length := dpRows_length graph
  have hsndlen : (rows.map Prod.snd).length = seq.length := by
    rw [List.length_map, hrowslen, hglen]
  have hziplen : (graph.zip (rows.map Prod.snd)).length = seq.length := by
    rw [List.length_zip, hglen, hsndlen, Nat.min_self]
  have hbtlen : (btList revRows (some bi)).length = seq.length := by
    rw [btList_length, hrevRows, List.length_reverse, hziplen]
  have hoptslen : opts.length = seq.length := by
    rw [hopts, List.length_reverse, hbtlen]
  constructor
  · intro c hc
    apply applyMapping_preserve sc mapping cols out c happ
    intro pr hpr
    obtain ⟨a, b⟩ := pr
    have hmem := (List.mem_zip (by rwa [hmapping] at hpr)).1
    obtain ⟨pr2, hpr2, hpr2eq⟩ := List.mem_map.mp hmem
    rw [← hpr2eq]
    exact hc pr2 hpr2
  · intro j c p hj hclt
    have hjlt : j < seq.length := (List.get?_eq_some.mp hj).1
    obtain ⟨o, ho⟩ : ∃ o, opts.get? j = some o :=
      ⟨_, List.get?_eq_get (by rw [hoptslen]; exact hjlt)⟩
    have hfget : (seq.map Prod.fst).get? j = some c := by
      rw [List.get?_map, hj]
      rfl
    have hmget : mapping.get? j = some (c, o) := by
      rw [hmapping]
      exact (zip_get?_some _ _ j c o).mpr ⟨hfget, ho⟩
    have honotnone : o ≠ none :=
      applyMapping_no_none sc mapping cols out happ (c, o) (List.get?_mem hmget)
    obtain ⟨x, rfl⟩ : ∃ x, o = some x := by
      cases o with
      | none => exact absurd rfl honotnone
      | some x => exact ⟨x, rfl⟩
    have hxmem : x ∈ mkOptions ops p := by
      have hrev1 : (btList revRows (some bi)).get? (seq.length - 1 - j) = some (some x) := by
        have hlem := List.get?_reverse (l := btList revRows (some bi)) (i := j)
          (by rw [hbtlen]; exact hjlt)
        rw [← hopts, ho, hbtlen] at hlem
        exact hlem.symm
      obtain ⟨row, hrow, hxrow⟩ :=
        btList_get?_mem revRows (some bi) (seq.length - 1 - j) (some x) hrev1 x rfl
      have hrow2 : (graph.zip (rows.map Prod.snd)).get? j = some row := by
        have hjlt2 : seq.length - 1 - j < (graph.zip (rows.map Prod.snd)).length := by
          rw [hziplen]; omega
        have hlem := List.get?_reverse (l := graph.zip (rows.map Prod.snd))
          (i := seq.length - 1 - j) hjlt2
        rw [← hrevRows] at hlem
        rw [hlem, hziplen] at hrow
        rw [← hrow]
        congr 1
        omega
      obtain ⟨g, pth⟩ := row
      have hgget : graph.get? j = some g :=
        ((zip_get?_some _ _ j g pth).mp hrow2).1
      have hgval : g = mkOptions ops p := by
        rw [hgraph, List.get?_map, hj] at hgget
        simpa using hgget.symm
      rw [← hgval]
      exact hxrow
    refine ⟨x, hxmem, ?_⟩
    apply applyMapping_written sc mapping cols out j c x happ hmget _ hclt
    intro j2 pr hj2 hne
    obtain ⟨a, b⟩ := pr
    have hfget2 : (seq.map Prod.fst).get? j2 = some a := by
      rw [hmapping] at hj2
      exact ((zip_get?_some _ _ j2 a b).mp hj2).1
    rw [List.get?_map] at hfget2
    cases hs2 : seq.get? j2 with
    | none => rw [hs2] at hfget2; simp at hfget2
    | some pr2 =>
        rw [hs2] at hfget2
        simp only [Option.map_some', Option.some_inj] at hfget2
        obtain ⟨hjlt', hgetj⟩ := List.get?_eq_some.mp hj
        obtain ⟨hj2lt', hgetj2⟩ := List.get?_eq_some.mp hs2
        rw [List.pairwise_iff_get] at hpair
        intro hcontra
        rcases Nat.lt_or_ge j2 j with hlt | hge
        · have hcmp := hpair ⟨j2, hj2lt'⟩ ⟨j, hjlt'⟩ hlt
          rw [hgetj, hgetj2] at hcmp
          have h5 : pr2.1 < c := hcmp
          have hac : a = c := hcontra
          rw [hfget2, hac] at h5
          exact absurd h5 (lt_irrefl c)
        · have hgt : j < j2 := by omega
          have hcmp := hpair ⟨j, hjlt'⟩ ⟨j2, hj2lt'⟩ hgt
          rw [hgetj, hgetj2] at hcmp
          have h5 : c < pr2.1 := hcmp
          have hac : a = c := hcontra
          rw [hfget2, hac] at h5
          exact absurd h5 (lt_irrefl c)

theorem optimizeFrom_isSome (ops : List ℤ) (sc : ℕ) (cols : List (List Note))
    (seq : List (ℕ × ℤ)) (hne : ∀ ip ∈ seq, mkOptions ops ip.2 ≠ []) :
    (optimizeFrom ops sc cols seq).isSome = true := by
  by_cases h2 : seq.length < 2
  · rw [optimizeFrom, if_pos h2]
    rfl
  · rw [optimizeFrom_eq_of ops sc cols seq h2]
    obtain ⟨ip0, ip1, tl, rfl⟩ : ∃ ip0 ip1 tl, seq = ip0 :: ip1 :: tl := by
      cases seq with
      | nil => exact absurd (by simp) h2
      | cons ip0 rest =>
          cases rest with
          | nil => exact absurd (by simp) h2
          | cons ip1 tl => exact ⟨ip0, ip1, tl, rfl⟩
    set g0 := mkOptions ops ip0.2 with hg0
    set rest := (ip1 :: tl).map (fun ip => mkOptions ops ip.2) with hrest
    have hgraph : (ip0 :: ip1 :: tl).map (fun ip => mkOptions ops ip.2) = g0 :: rest := by
      rw [List.map_cons]
    set dp0 := g0.map (fun _ => (0 : Cost)) with hdp0
    set p0 := g0.map (fun _ => (-1 : ℤ)) with hp0
    have hdrows : dpRows (g0 :: rest) = (dp0, p0) :: dpRowsGo g0 dp0 rest := by
      rw [dpRows]
    have hg0ne : g0 ≠ [] := hne ip0 (by simp)
    have hrestne : ∀ g ∈ rest, g ≠ [] := by
      intro g hg
      rw [hrest] at hg
      obtain ⟨ip, hip, rfl⟩ := List.mem_map.mp hg
      exact hne ip (List.mem_cons_of_mem _ hip)
    have hdp0len : dp0.length = g0.length := by rw [hdp0, List.length_map]
    have hdp0fin : ∀ c ∈ dp0, c < ⊤ := by
      intro c hc
      rw [hdp0] at hc
      obtain ⟨-, -, rfl⟩ := List.mem_map.mp hc
      exact WithTop.coe_lt_top 0
    -- the last dp row is finite and matches the last graph row
    have hfor := dpRowsGo_forall rest g0 dp0 hdp0len hdp0fin hg0ne hrestne
    have hlastR : ((dpRowsGo g0 dp0 rest).getLastD (dp0, p0)).1.length =
        (rest.getLastD g0).length ∧
        ∀ c ∈ ((dpRowsGo g0 dp0 rest).getLastD (dp0, p0)).1, c < ⊤ := by
      have := forall₂_getLastD _ rest (dpRowsGo g0 dp0 rest) g0 (dp0, p0) hfor
        ⟨hdp0len, hdp0fin⟩
      exact this
    -- identify dpLast
    have hdpLast : ((dpRows (g0 :: rest)).map Prod.fst).getLastD [] =
        ((dpRowsGo g0 dp0 rest).getLastD (dp0, p0)).1 := by
      rw [hdrows, List.map_cons, List.getLastD_cons]
      have := getLastD_map (Prod.fst : List Cost × List ℤ → List Cost)
        (dpRowsGo g0 dp0 rest) (dp0, p0)
      exact this
    have hdpLastlen : (((dpRows (g0 :: rest)).map Prod.fst).getLastD []).length =
        (rest.getLastD g0).length := by
      rw [hdpLast]
      exact hlastR.1
    have hdpLastfin : ∀ c ∈ ((dpRows (g0 :: rest)).map Prod.fst).getLastD [], c < ⊤ := by
      rw [hdpLast]
      exact hlastR.2
    have hlastGne : (rest.getLastD g0) ≠ [] := by
      rcases getLastD_mem rest g0 with hnil | hmem
      · rw [hnil]
        simpa using hg0ne
      · exact hrestne _ hmem
    have hdpLastne : ((dpRows (g0 :: rest)).map Prod.fst).getLastD [] ≠ [] := by
      intro hcontra
      apply hlastGne
      have hll := congrArg List.length hcontra
      rw [hdpLastlen] at hll
      exact List.length_eq_zero.mp hll
    obtain ⟨hbi0, hbilt⟩ := bestFinalIdx_spec _ hdpLastne hdpLastfin
    have hbilt2 : (bestFinalIdx (((dpRows (g0 :: rest)).map Prod.fst).getLastD [])).toNat <
        (rest.getLastD g0).length := by
      rw [← hdpLastlen]
      exact hbilt
    obtain ⟨w, -, -, hallsome, -⟩ :=
      bt_valid rest g0 dp0 p0 hdp0len hdp0fin hg0ne hrestne
        (bestFinalIdx (((dpRows (g0 :: rest)).map Prod.fst).getLastD [])) hbi0 hbilt2
    -- conclude
    rw [hgraph, hdrows]
    apply applyMapping_isSome
    intro pr hpr
    obtain ⟨a, b⟩ := pr
    have hbmem := (List.mem_zip hpr).2
    rw [List.mem_reverse, List.map_cons, List.zip_cons_cons, ← hdrows] at hbmem
    have hsome := hallsome b hbmem
    intro hcontra
    have hb : b = none := hcontra
    rw [hb] at hsome
    simp at hsome

theorem map_openPitch_440_220 : ([440, 220] : List ℝ).map openPitch = [69, 57] := by
  rw [List.map_cons, List.map_cons, List.map_nil, openPitch_440, openPitch_220]

theorem map_openPitch_440 : ([440] : List ℝ).map openPitch = [69] := by
  rw [List.map_cons, List.map_nil, openPitch_440]

/-- C7 counterexample: `optimizeFingering` does throw.  With two eligible
single-note columns where the second note (fret 25, itself out of range)
has an empty candidate set, `bestFinalIdx` stays `-1`, the backtracking
reads `undefined`, and `option.strIndex` raises a `TypeError` (the `none`
result below). -/
theorem c7_counterexample :
    optimizeFingeringR [440, 220] 2
      [[Note.num 0, Note.num (-1)], [Note.num 25, Note.num (-1)]] = none := by
  rw [optimizeFingeringR_eq _ _ _
    (by intro f hf; rcases List.mem_cons.mp hf with rfl | hf2; · norm_num
        · rcases List.mem_cons.mp hf2 with rfl | hf3; · norm_num
          · simp at hf3)
    (by decide)]
  rw [map_openPitch_440_220]
  decide

/-- C7 amended: `optimizeFingering` returns normally (no throw) whenever
every eligible note admits at least one candidate placement — in
particular always when there are fewer than two eligible columns, where
it returns the input unchanged.  (With an eligible note whose candidate
set is empty it throws; see the counterexample.) -/
theorem c7_amended (tuning : List ℝ) (sc : ℕ) (cols : List (List Note))
    (hpos : ∀ f ∈ tuning, 0 < f) (hlen : ∀ col ∈ cols, col.length ≤ tuning.length)
    (hcand : ∀ ip ∈ seqOfR tuning cols, mkOptions (tuning.map openPitch) ip.2 ≠ []) :
    (optimizeFingeringR tuning sc cols).isSome = true := by
  rw [optimizeFingeringR_eq tuning sc cols hpos hlen]
  rw [optimizeFingering]
  apply optimizeFrom_isSome
  intro ip hip
  apply hcand
  rwa [seqOfR_eq tuning hpos cols hlen]

theorem c7_amended_witness :
    ((∀ f ∈ ([440, 220] : List ℝ), 0 < f) ∧
      (∀ col ∈ [[Note.num 0, Note.num (-1)], [Note.num 2, Note.num (-1)]],
        List.length col ≤ ([440, 220] : List ℝ).length) ∧
      (∀ ip ∈ seqOfR [440, 220] [[Note.num 0, Note.num (-1)], [Note.num 2, Note.num (-1)]],
        mkOptions (([440, 220] : List ℝ).map openPitch) ip.2 ≠ [])) ∧
    (optimizeFingeringR [440, 220] 2
      [[Note.num 0, Note.num (-1)], [Note.num 2, Note.num (-1)]]).isSome = true := by
  have hpos : ∀ f ∈ ([440, 220] : List ℝ), 0 < f := by
    intro f hf
    rcases List.mem_cons.mp hf with rfl | hf2
    · norm_num
    · rcases List.mem_cons.mp hf2 with rfl | hf3
      · norm_num
      · simp at hf3
  have hlen : ∀ col ∈ [[Note.num 0, Note.num (-1)], [Note.num 2, Note.num (-1)]],
      List.length col ≤ ([440, 220] : List ℝ).length := by decide
  have hcand : ∀ ip ∈ seqOfR [440, 220] [[Note.num 0, Note.num (-1)], [Note.num 2, Note.num (-1)]],
      mkOptions (([440, 220] : List ℝ).map openPitch) ip.2 ≠ [] := by
    rw [seqOfR_eq _ hpos _ hlen, map_openPitch_440_220]
    decide
  exact ⟨⟨hpos, hlen, hcand⟩,
    c7_amended [440, 220] 2 [[Note.num 0, Note.num (-1)], [Note.num 2, Note.num (-1)]]
      hpos hlen hcand⟩

/-- C8: non-interference.  Whenever `optimizeFingering` returns (does not
throw), every column whose number of sounding notes differs from one is
returned exactly as it was in the input, and the output has the same
number of columns.  (Mutation cannot occur: the pure model mirrors the
source's clone-before-write `columns.map(col => [...col])`; in the
fewer-than-two-eligible-columns branch the input is returned as is.) -/
theorem c8_noninterference (tuning : List ℝ) (sc : ℕ) (cols out : List (List Note))
    (hpos : ∀ f ∈ tuning, 0 < f) (hlen : ∀ col ∈ cols, col.length ≤ tuning.length)
    (hopt : optimizeFingeringR tuning sc cols = some out) :
    out.length = cols.length ∧
      ∀ (c : ℕ) (col : List Note), cols.get? c = some col →
        (soundingCells col).length ≠ 1 → out.get? c = some col := by
  rw [optimizeFingeringR_eq tuning sc cols hpos hlen, optimizeFingering] at hopt
  set ops := tuning.map openPitch with hops
  by_cases h2 : (seqOf ops cols).length < 2
  · rw [optimizeFrom, if_pos h2, Option.some_inj] at hopt
    subst hopt
    exact ⟨rfl, fun c col hc _ => hc⟩
  · have hspec := optimizeFrom_spec ops sc cols (seqOf ops cols) out h2
      (seqFrom_pairwise _ cols 0) hopt
    constructor
    · rw [optimizeFrom_eq_of ops sc cols _ h2] at hopt
      exact applyMapping_length sc _ cols out hopt
    · intro c col hc hnotone
      rw [hspec.1 c ?_, hc]
      intro pr hpr
      obtain ⟨-, col2, hcol2, hp2⟩ := seqFrom_mem _ cols 0 pr.1 pr.2 hpr
      rw [Nat.sub_zero] at hcol2
      intro hcontra
      rw [hcontra, hc, Option.some_inj] at hcol2
      subst hcol2
      have hlen1 := congrArg List.length hp2
      rw [colPitches_length] at hlen1
      simp at hlen1
      exact hnotone hlen1

theorem c8_noninterference_witness :
    ((∀ f ∈ ([440] : List ℝ), 0 < f) ∧
      (∀ col ∈ [[Note.num 0], [Note.num (-1)], [Note.num 2]],
        List.length col ≤ ([440] : List ℝ).length) ∧
      optimizeFingeringR [440] 1 [[Note.num 0], [Note.num (-1)], [Note.num 2]] =
        some [[Note.num 0], [Note.num (-1)], [Note.num 2]]) ∧
    (([[Note.num 0], [Note.num (-1)], [Note.num 2]] : List (List Note)).length =
        ([[Note.num 0], [Note.num (-1)], [Note.num 2]] : List (List Note)).length ∧
      ∀ (c : ℕ) (col : List Note),
        ([[Note.num 0], [Note.num (-1)], [Note.num 2]] : List (List Note)).get? c = some col →
        (soundingCells col).length ≠ 1 →
        ([[Note.num 0], [Note.num (-1)], [Note.num 2]] : List (List Note)).get? c = some col) := by
  have hpos : ∀ f ∈ ([440] : List ℝ), 0 < f := by
    intro f hf
    rcases List.mem_cons.mp hf with rfl | hf2
    · norm_num
    · simp at hf2
  have hlen : ∀ col ∈ [[Note.num 0], [Note.num (-1)], [Note.num 2]],
      List.length col ≤ ([440] : List ℝ).length := by decide
  have hopt : optimizeFingeringR [440] 1 [[Note.num 0], [Note.num (-1)], [Note.num 2]] =
      some [[Note.num 0], [Note.num (-1)], [Note.num 2]] := by
    rw [optimizeFingeringR_eq _ _ _ hpos hlen, map_openPitch_440]
    decide
  exact ⟨⟨hpos, hlen, hopt⟩,
    c8_noninterference [440] 1 [[Note.num 0], [Note.num (-1)], [Note.num 2]]
      [[Note.num 0], [Note.num (-1)], [Note.num 2]] hpos hlen hopt⟩

/-- C3: pitch preservation.  Whenever the optimizer relocates a note (the
run returned normally and at least two columns were eligible, so every
eligible column is rewritten), the chosen placement `(s, f)` of an
eligible column whose single sounding note was `(s₀, f₀)` satisfies
`getSemitone(tuning[s], f) = getSemitone(tuning[s₀], f₀)` — recomputing
the semitone from the chosen string and fret gives back exactly the
original note's semitone number. -/
theorem c3_pitch_preservation (tuning : List ℝ) (sc : ℕ) (cols out : List (List Note))
    (hpos : ∀ f ∈ tuning, 0 < f) (hlen : ∀ col ∈ cols, col.length ≤ tuning.length)
    (hopt : optimizeFingeringR tuning sc cols = some out)
    (hge2 : ¬ (seqOfR tuning cols).length < 2)
    (c s₀ : ℕ) (f₀ : ℤ) (col : List Note)
    (hcol : cols.get? c = some col) (hsingle : soundingCells col = [(s₀, f₀)]) :
    ∃ (s : ℕ) (f : ℤ), s < tuning.length ∧
      out.get? c = some ((List.replicate sc (Note.num (-1))).set s (Note.num f)) ∧
      getSemitone (tuning.getD s 1) f = getSemitone (tuning.getD s₀ 1) f₀ := by
  rw [optimizeFingeringR_eq tuning sc cols hpos hlen, optimizeFingering] at hopt
  rw [seqOfR_eq tuning hpos cols hlen] at hge2
  set ops := tuning.map openPitch with hops
  -- the target pitch of the eligible column
  have hpitch : colPitches ops col = [ops.getD s₀ 0 + f₀] := by
    rw [colPitches, hsingle]
    rfl
  have hclt : c < cols.length := (List.get?_eq_some.mp hcol).1
  have hmem : (c, ops.getD s₀ 0 + f₀) ∈ seqOf ops cols := by
    have := seqFrom_mem_of (colPitches ops) cols 0 c col (ops.getD s₀ 0 + f₀) hcol hpitch
    simpa using this
  obtain ⟨j, hjget⟩ := List.mem_iff_get?.mp hmem
  have hspec := (optimizeFrom_spec ops sc cols (seqOf ops cols) out hge2
    (seqFrom_pairwise _ cols 0) hopt).2 j c (ops.getD s₀ 0 + f₀) hjget hclt
  obtain ⟨x, hxmem, hout⟩ := hspec
  obtain ⟨j', op, hopget, hstr, hfret, -, -, -⟩ :=
    mkOptionsFrom_mem (ops.getD s₀ 0 + f₀) ops 0 x (by rwa [mkOptions] at hxmem)
  have hstr' : x.strIndex = j' := by omega
  have hj'lt : j' < tuning.length := by
    have := (List.get?_eq_some.mp hopget).1
    rwa [hops, List.length_map] at this
  -- the open pitch of the chosen string
  have hopval : op = openPitch (tuning.get ⟨j', hj'lt⟩) := by
    rw [hops, List.get?_map, List.get?_eq_get hj'lt] at hopget
    simpa using hopget.symm
  -- the open pitch of the original string
  have hs₀col : s₀ < col.length := by
    have := soundingCellsFrom_bounds col 0 (s₀, f₀) (by rw [soundingCells] at hsingle; rw [hsingle]; simp)
    omega
  have hs₀lt : s₀ < tuning.length :=
    lt_of_lt_of_le hs₀col (hlen col (List.get?_mem hcol))
  have horig : ops.getD s₀ 0 = openPitch (tuning.get ⟨s₀, hs₀lt⟩) := by
    rw [hops, List.getD_eq_get?, List.get?_map, List.get?_eq_get hs₀lt]
    rfl
  refine ⟨x.strIndex, x.fret, by omega, hout, ?_⟩
  have hgetDs : tuning.getD x.strIndex 1 = tuning.get ⟨j', hj'lt⟩ := by
    rw [hstr', List.getD_eq_get?, List.get?_eq_get hj'lt]
    rfl
  have hgetDs₀ : tuning.getD s₀ 1 = tuning.get ⟨s₀, hs₀lt⟩ := by
    rw [List.getD_eq_get?, List.get?_eq_get hs₀lt]
    rfl
  rw [hgetDs, hgetDs₀,
    getSemitone_eq _ (hpos _ (tuning.get_mem _ _)) _,
    getSemitone_eq _ (hpos _ (tuning.get_mem _ _)) _,
    hfret, hopval, horig]
  ring

theorem c3_pitch_preservation_witness :
    ((∀ f ∈ ([440] : List ℝ), 0 < f) ∧
      (∀ col ∈ [[Note.num 0], [Note.num (-1)], [Note.num 2]],
        List.length col ≤ ([440] : List ℝ).length) ∧
      optimizeFingeringR [440] 1 [[Note.num 0], [Note.num (-1)], [Note.num 2]] =
        some [[Note.num 0], [Note.num (-1)], [Note.num 2]] ∧
      ¬ (seqOfR [440] [[Note.num 0], [Note.num (-1)], [Note.num 2]]).length < 2 ∧
      ([[Note.num 0], [Note.num (-1)], [Note.num 2]] : List (List Note)).get? 0 =
        some [Note.num 0] ∧
      soundingCells [Note.num 0] = [(0, 0)]) ∧
    (∃ (s : ℕ) (f : ℤ), s < ([440] : List ℝ).length ∧
      ([[Note.num 0], [Note.num (-1)], [Note.num 2]] : List (List Note)).get? 0 =
        some ((List.replicate 1 (Note.num (-1))).set s (Note.num f)) ∧
      getSemitone (([440] : List ℝ).getD s 1) f =
        getSemitone (([440] : List ℝ).getD 0 1) 0) := by
  have hpos : ∀ f ∈ ([440] : List ℝ), 0 < f := by
    intro f hf
    rcases List.mem_cons.mp hf with rfl | hf2
    · norm_num
    · simp at hf2
  have hlen : ∀ col ∈ [[Note.num 0], [Note.num (-1)], [Note.num 2]],
      List.length col ≤ ([440] : List ℝ).length := by decide
  have hopt : optimizeFingeringR [440] 1 [[Note.num 0], [Note.num (-1)], [Note.num 2]] =
      some [[Note.num 0], [Note.num (-1)], [Note.num 2]] := by
    rw [optimizeFingeringR_eq _ _ _ hpos hlen, map_openPitch_440]
    decide
  have hge2 : ¬ (seqOfR [440] [[Note.num 0], [Note.num (-1)], [Note.num 2]]).length < 2 := by
    rw [seqOfR_eq _ hpos _ hlen, map_openPitch_440]
    decide
  exact ⟨⟨hpos, hlen, hopt, hge2, rfl, by decide⟩,
    c3_pitch_preservation [440] 1 [[Note.num 0], [Note.num (-1)], [Note.num 2]]
      [[Note.num 0], [Note.num (-1)], [Note.num 2]] hpos hlen hopt hge2 0 0 0
      [Note.num 0] rfl (by decide)⟩
